import Mathlib

/-!
# cherrytree-api: content reconstruction (`src/ctb`)

A shallow embedding of the content-handling code of package `ctb`
(`model.go`, `xml.go`, `Handle.go`, `api/table.go`) and theorems about it.

Conventions of the embedding.

* A Go `string` that holds text is a Lean `String`, a sequence of code points:
  `utf8.RuneCountInString s` is `s.length` and `[]rune(s)` is `s.data`.  The
  texts come out of `encoding/xml`, which only accepts valid UTF-8.
* An `int32` is an `Int`.  The flag decoder, where the bit pattern matters,
  reduces explicitly modulo `2 ^ 32`.  The running counter `chars` of the merge
  loop and the widget offsets are compared and incremented as integers, without
  wrap-around: the counter is bounded by the size of one stored node text plus
  the number of its widget rows.
* A Go slice is a `List`; an index expression that Go would reject at run time
  gives `none` (or the result `crash`).  Where a slice expression reaches
  beyond the length of a slice but not beyond its capacity (`NewCtText`), the
  backing array is modelled up to its capacity.
* A `for` loop whose bound is not a structural argument takes an iteration
  budget computed from its input (`mergeMeasure`).
* The answers of the store to the queries of a request are the fields of `Db`;
  the library calls outside the repository (`xml.Unmarshal`,
  `image.DecodeConfig`, `os.Mkdir`, `os.Stat`, file writes, `path.Clean`,
  `sort.Slice`) are the fields of `Env`.
-/

namespace Ctb

/-! ## Data model (`xml.go`, `model.go`, `api/table.go`) -/

def CtDocElementText : String := "text"
def CtDocElementCodeBox : String := "code-box"
def CtDocElementTable : String := "grid"
def CtDocElementPng : String := "image-png"
def CtDocElementEmbFile : String := "image-embfile"
def CtDocElementAnchor : String := "image-anchor"

/-- Go `XmlRichText`: one `rich_text` element of the markup. -/
structure XmlRichText where
  Foreground : String
  Background : String
  Weight : String
  Style : String
  Underline : String
  Strikethrough : String
  Scale : String
  Family : String
  Link : String
  Justification : String
  Indent : Int
  Text : String
  deriving DecidableEq, Repr

/-- Go `CtText`: field `Type` (here `Typ`) and the embedded `XmlRichText`. -/
structure CtText extends XmlRichText where
  Typ : String
  deriving DecidableEq, Repr

/-- Go `ptNodeMeta` (`api/table.go`). -/
structure ptNodeMeta where
  NodeId : Int
  Name : String
  Syntax : String
  IsRo : Int
  IsRichtxt : Int
  Level : Int
  deriving DecidableEq, Repr

/-- Go `CtNode`; `Color` and `Icon` are `uint32`. -/
structure CtNode where
  Id : Int
  Name : String
  IsBold : Bool
  IsCustomColor : Bool
  Color : Int
  IsReadOnly : Bool
  Icon : Int
  IsRichText : Bool
  Syntax : String
  HasChildren : Bool
  deriving DecidableEq, Repr

/-- Go `_CtAnchoredWidgetMixin`. -/
structure CtAnchoredWidgetMixin where
  Typ : String
  Offset : Int
  Justification : String
  deriving DecidableEq, Repr

/-- Go `CtCodeBox`. -/
structure CtCodeBox extends CtAnchoredWidgetMixin where
  Code : String
  Language : String
  Width : Int
  Height : Int
  IsWidthPixel : Bool
  IsHighlightBraces : Bool
  IsShowLineNumber : Bool
  deriving DecidableEq, Repr

/-- Go `CtTable`. -/
structure CtTable extends CtAnchoredWidgetMixin where
  Data : List (List String)
  MinColWidth : Int
  MaxColWidth : Int
  deriving DecidableEq, Repr

/-- Go `CtPng`; `Data` is `none` for a nil slice, `DiskPath` is `none` for a
nil pointer.  Bytes are numbers below 256. -/
structure CtPng extends CtAnchoredWidgetMixin where
  Data : Option (List Nat)
  Width : Int
  Height : Int
  DiskPath : Option String
  deriving DecidableEq, Repr

/-- Go `CtEmbFile`. -/
structure CtEmbFile extends CtAnchoredWidgetMixin where
  Data : Option (List Nat)
  Filename : String
  DiskPath : Option String
  deriving DecidableEq, Repr

/-- Go `CtAnchor`. -/
structure CtAnchor extends CtAnchoredWidgetMixin where
  Name : String
  deriving DecidableEq, Repr

/-- Go interface `CtAnchoredWidget` with the five types that implement it. -/
inductive CtAnchoredWidget where
  | codeBox (w : CtCodeBox)
  | table (w : CtTable)
  | png (w : CtPng)
  | embFile (w : CtEmbFile)
  | anchor (w : CtAnchor)
  deriving DecidableEq, Repr

/-- Go method `GetOffset` of the mixin, promoted to every widget type. -/
def CtAnchoredWidget.GetOffset : CtAnchoredWidget → Int
  | .codeBox w => w.Offset
  | .table w => w.Offset
  | .png w => w.Offset
  | .embFile w => w.Offset
  | .anchor w => w.Offset

/-- One element of a line of the result (`interface{}` in `resultSet`): a
`*CtText` or an anchored widget.  The split branch stores `&anchoredWidgets[0]`,
a pointer to the same widget value; both are the constructor `widget`. -/
inductive Element where
  | text (t : CtText)
  | widget (w : CtAnchoredWidget)
  deriving DecidableEq, Repr

/-! ## Flag decoder (`NewCtNode`) -/

/-- Go conversion `uint32(x)` of an `int32`: the same 32 bits read unsigned. -/
def toUint32 (x : Int) : Int := x % 2 ^ 32

/-- Go `NewCtNode`.  `&` on `int32` is the two's complement conjunction
(`Int.land`), `>>` on `int32` is the arithmetic shift (`Int.shiftRight`). -/
def NewCtNode (pt : ptNodeMeta) (hasChildren : Bool) : CtNode :=
  { Id := pt.NodeId
    Name := pt.Name
    IsRichText := Int.land pt.IsRichtxt 0b0001 != 0
    IsBold := Int.land pt.IsRichtxt 0b0010 != 0
    IsCustomColor := Int.land pt.IsRichtxt 0b0100 != 0
    Color := toUint32 (Int.shiftRight pt.IsRichtxt 3)
    IsReadOnly := Int.land pt.IsRo 0b1 != 0
    Icon := toUint32 (Int.shiftRight pt.IsRo 1)
    Syntax := pt.Syntax
    HasChildren := hasChildren }

/-- Range of a Go `int32`. -/
def isInt32 (x : Int) : Prop := -2 ^ 31 ≤ x ∧ x < 2 ^ 31

instance (x : Int) : Decidable (isInt32 x) := by
  unfold isInt32; infer_instance

/-! ## Colour normaliser and `NewCtText` -/

/-- Go `append(a[0:n], src...)` on a backing array `arr` whose capacity
suffices: the elements of `src` are written at positions `n, n+1, ...` of the
same array. -/
def overwriteAt (arr : List Char) (n : Nat) (src : List Char) : List Char :=
  arr.take n ++ src ++ arr.drop (n + src.length)

/-- Capacity of the rune slice `runes := []rune(s)` of `NewCtText` for a string
of `n` runes.  The slice does not leave the function, so for at most 32 runes
the conversion fills the zeroed 32-rune buffer of the caller's frame
(`runtime.stringtoslicerune` with `tmpBuf`); a longer string gets an array of
at least `n` runes. -/
def runeCap (n : Nat) : Nat := if n ≤ 32 then 32 else n

/-- The expression
`string(append(append(runes[0:3], runes[5:7]...), runes[9:11]...))` of
`NewCtText`, with `runes := []rune(s)`.  A slice expression is checked against
the capacity of `runes`, not its length, and the capacity is at least 32: the
expression has a value for every string, and with fewer than 11 runes it reads
the zero runes that follow the string in the backing array.  The inner `append`
writes into that array before the outer one reads `runes[9:11]` from it. -/
def normalizeColor (s : String) : String :=
  let runes := s.data ++ List.replicate (runeCap s.data.length - s.data.length) (Char.ofNat 0)
  let arr1 := overwriteAt runes 3 ((runes.drop 5).take 2)
  let arr2 := overwriteAt arr1 5 ((arr1.drop 9).take 2)
  ⟨arr2.take 7⟩

/-- Go `NewCtText`: a non-empty `Background` is rewritten first, then a
non-empty `Foreground`; the function has no error result. -/
def NewCtText (x : XmlRichText) : CtText :=
  let t : CtText := { toXmlRichText := x, Typ := CtDocElementText }
  let t1 : CtText :=
    if t.Background ≠ "" then { t with Background := normalizeColor t.Background } else t
  if t1.Foreground ≠ "" then { t1 with Foreground := normalizeColor t1.Foreground } else t1

/-! ## Markup-to-runs parser (`GetNodeContentById`, line partitioning) -/

/-- Go `lines[i] = append(lines[i], el)`; `none` when `i` is out of range. -/
def appendAt {α : Type} : List (List α) → Nat → α → Option (List (List α))
  | [], _, _ => none
  | l :: ls, 0, el => some ((l ++ [el]) :: ls)
  | l :: ls, i + 1, el => (appendAt ls i el).map (fun r => l :: r)

/-- Go `strings.Split(s, "\n")` on the runes of `s`: the pieces between the
line breaks, `[[]]` for the empty text. -/
def splitNL : List Char → List (List Char)
  | [] => [[]]
  | c :: cs =>
    if c = '\n' then [] :: splitNL cs
    else
      match splitNL cs with
      | [] => [[c]]
      | h :: t => (c :: h) :: t

/-- Go `strings.Split(s, "\n")`. -/
def stringsSplit (s : String) : List String := (splitNL s.data).map String.mk

/-- The loop `for len(ls) > 0 { ... }` over the pieces of one run: a copy of
the run with the piece as text is appended to the current line unless the piece
is empty, and a new line is opened when more pieces follow. -/
def splitLoop (richTextNode : CtText) :
    List String → List (List CtText) → Nat → Option (List (List CtText) × Nat)
  | [], texts, currentLineIndex => some (texts, currentLineIndex)
  | l :: ls, texts, currentLineIndex =>
    let curLineText : CtText := { richTextNode with Text := l }
    let appended : Option (List (List CtText)) :=
      if curLineText.Text ≠ "" then appendAt texts currentLineIndex curLineText else some texts
    match appended with
    | none => none
    | some texts1 =>
      if 0 < ls.length then splitLoop richTextNode ls (texts1 ++ [[]]) (currentLineIndex + 1)
      else splitLoop richTextNode ls texts1 currentLineIndex

/-- The loop `for _, e := range xmlDocument.RichTexts { ... }`. -/
def parseLoop : List XmlRichText → List (List CtText) → Nat → Option (List (List CtText))
  | [], texts, _ => some texts
  | e :: es, texts, currentLineIndex =>
    let richTextNode := NewCtText e
    if richTextNode.Text = "" then
      match appendAt texts currentLineIndex richTextNode with
      | none => none
      | some texts1 => parseLoop es texts1 currentLineIndex
    else
      match splitLoop richTextNode (stringsSplit richTextNode.Text) texts currentLineIndex with
      | none => none
      | some (texts1, cli1) => parseLoop es texts1 cli1

/-- The line partitioning of `GetNodeContentById` on the runs decoded from the
markup, starting from `texts := [][]*CtText{{}}`, `currentLineIndex := 0`. -/
def parseRuns (richTexts : List XmlRichText) : Option (List (List CtText)) :=
  parseLoop richTexts [[]] 0

/-! ## Content merger (`GetNodeContentById`, merge loop) -/

/-- What the merge part of `GetNodeContentById` can end with. -/
inductive MergeResult where
  /-- `ret.RichTexts = &resultSet; return &ret, nil` -/
  | tree (resultSet : List (List Element))
  /-- `return nil, errors.New(errInfo)` -/
  | error (errInfo : String)
  /-- a run-time panic (index out of range) -/
  | crash
  /-- the iteration budget of the embedding was used up -/
  | unfinished
  deriving DecidableEq, Repr

/-- The variables of the merge loop. -/
structure MergeState where
  texts : List (List CtText)
  anchoredWidgets : List CtAnchoredWidget
  resultSet : List (List Element)
  currentLineIndex : Nat
  chars : Int
  deriving DecidableEq, Repr

/-- One pass through the body of the merge loop. -/
inductive StepResult where
  | next (st : MergeState)
  | done (r : MergeResult)
  deriving DecidableEq, Repr

/-- The inner loop `for _, el := range line { resultSet[i] = append(resultSet[i], el) }`. -/
def appendLine : List CtText → List (List Element) → Nat → Option (List (List Element))
  | [], rs, _ => some rs
  | el :: els, rs, i =>
    match appendAt rs i (Element.text el) with
    | none => none
    | some rs1 => appendLine els rs1 i

/-- The branch `len(anchoredWidgets) == 0`: every remaining line is appended
to the result, a new result line being opened while lines remain. -/
def flush : List (List CtText) → List (List Element) → Nat → Option (List (List Element))
  | [], rs, _ => some rs
  | line :: rest, rs, currentLineIndex =>
    match appendLine line rs currentLineIndex with
    | none => none
    | some rs1 =>
      flush rest (if 0 < rest.length then rs1 ++ [[]] else rs1) (currentLineIndex + 1)

/-- Concatenation of the texts of a line (`for _, t := range line { errInfo += t.Text }`). -/
def lineText (line : List CtText) : String :=
  line.foldl (fun acc t => acc ++ t.Text) ""

/-- The branch `offset < chars`: the message of the error, built from
`texts[currentLineIndex]` and `texts[currentLineIndex+1]`. -/
def offsetError (texts : List (List CtText)) (currentLineIndex : Nat) (chars offset : Int) :
    MergeResult :=
  let errInfo := "expected offset will not appear: cur=" ++ toString chars ++ " expected=" ++
    toString offset ++ "\n" ++ "remained texts in current line:\n"
  match texts.get? currentLineIndex with
  | none => MergeResult.crash
  | some line =>
    let errInfo := errInfo ++ lineText line ++ "\n"
    if (texts.length : Int) - 1 = currentLineIndex then
      MergeResult.error (errInfo ++ "no more lines.")
    else
      match texts.get? (currentLineIndex + 1) with
      | none => MergeResult.crash
      | some nextLine => MergeResult.error (errInfo ++ "texts in next line:\n" ++ lineText nextLine)

/-- The value stored for a failed `resultSet[currentLineIndex] = append(...)`. -/
def stepOfAppend (r : Option (List (List Element))) (k : List (List Element) → MergeState) :
    StepResult :=
  match r with
  | none => StepResult.done MergeResult.crash
  | some rs => StepResult.next (k rs)

/-- The body of `for len(texts) > 0 { ... }`. -/
def mergeStep (st : MergeState) : StepResult :=
  match st.texts with
  | [] => StepResult.done (MergeResult.tree st.resultSet)
  | line :: rest =>
    match st.anchoredWidgets with
    | [] =>
      match flush st.texts st.resultSet st.currentLineIndex with
      | none => StepResult.done MergeResult.crash
      | some rs => StepResult.done (MergeResult.tree rs)
    | w :: ws =>
      let offset := w.GetOffset
      match line with
      | [] =>
        if offset = st.chars then
          stepOfAppend (appendAt st.resultSet st.currentLineIndex (Element.widget w))
            (fun rs => { st with resultSet := rs, anchoredWidgets := ws, chars := st.chars + 1 })
        else
          StepResult.next { st with texts := rest, currentLineIndex := st.currentLineIndex + 1,
                                    resultSet := st.resultSet ++ [[]], chars := st.chars + 1 }
      | curText :: lineRest =>
        if offset = st.chars ∧ curText.Text ≠ "" then
          stepOfAppend (appendAt st.resultSet st.currentLineIndex (Element.widget w))
            (fun rs => { st with resultSet := rs, anchoredWidgets := ws, chars := st.chars + 1 })
        else
          let curTextLen : Int := curText.Text.length
          if curTextLen = 0 then
            stepOfAppend (appendAt st.resultSet st.currentLineIndex (Element.text curText))
              (fun rs => { st with resultSet := rs, texts := lineRest :: rest })
          else if offset < st.chars then
            StepResult.done (offsetError st.texts st.currentLineIndex st.chars offset)
          else if offset > st.chars then
            if st.chars + curTextLen < offset then
              stepOfAppend (appendAt st.resultSet st.currentLineIndex (Element.text curText))
                (fun rs => { st with resultSet := rs, chars := st.chars + curTextLen,
                                     texts := lineRest :: rest })
            else if st.chars + curTextLen > offset then
              let cut := (offset - st.chars).toNat
              let leftText : CtText := { curText with Text := ⟨curText.Text.data.take cut⟩ }
              let rightText : CtText := { curText with Text := ⟨curText.Text.data.drop cut⟩ }
              match appendAt st.resultSet st.currentLineIndex (Element.text leftText) with
              | none => StepResult.done MergeResult.crash
              | some rs1 =>
                stepOfAppend (appendAt rs1 st.currentLineIndex (Element.widget w))
                  (fun rs => { st with resultSet := rs, chars := offset + 1, anchoredWidgets := ws,
                                       texts := (rightText :: lineRest) :: rest })
            else
              stepOfAppend (appendAt st.resultSet st.currentLineIndex (Element.text curText))
                (fun rs => { st with resultSet := rs, chars := st.chars + curTextLen,
                                     texts := lineRest :: rest })
          else
            StepResult.next st

/-- The loop `for len(texts) > 0 { ... }` with an iteration budget. -/
def mergeLoop : Nat → MergeState → MergeResult
  | 0, _ => MergeResult.unfinished
  | fuel + 1, st =>
    match mergeStep st with
    | StepResult.done r => r
    | StepResult.next st1 => mergeLoop fuel st1

/-- Number of lines, fragments and widgets still to be consumed; every pass of
the loop that continues lowers it. -/
def mergeMeasure (st : MergeState) : Nat :=
  st.texts.length + (st.texts.map List.length).sum + st.anchoredWidgets.length

/-- The state at the head of the merge loop: `resultSet := [][]interface{}{{}}`,
`currentLineIndex = 0`, `chars = 0`. -/
def mergeInit (texts : List (List CtText)) (anchoredWidgets : List CtAnchoredWidget) :
    MergeState :=
  { texts := texts, anchoredWidgets := anchoredWidgets, resultSet := [[]],
    currentLineIndex := 0, chars := 0 }

/-- The merge part of `GetNodeContentById` on the partitioned lines and the
offset-sorted widgets. -/
def merge (texts : List (List CtText)) (anchoredWidgets : List CtAnchoredWidget) : MergeResult :=
  mergeLoop (mergeMeasure (mergeInit texts anchoredWidgets) + 1) (mergeInit texts anchoredWidgets)

/-- The rich-text part of `GetNodeContentById` after the widgets are sorted:
line partitioning of the decoded runs, then the merge. -/
def reconstruct (richTexts : List XmlRichText) (anchoredWidgets : List CtAnchoredWidget) :
    MergeResult :=
  match parseRuns richTexts with
  | none => MergeResult.crash
  | some texts => merge texts anchoredWidgets

/-! ## Views of a result used to state the properties -/

/-- One position of the flattened stream of a node: a rune of text, a widget,
or the line break between two consecutive lines. -/
inductive Slot where
  | rune (c : Char)
  | widget (w : CtAnchoredWidget)
  | lineBreak
  deriving DecidableEq, Repr

/-- The slots of one element: one per rune of a text, one for a widget. -/
def Element.slots : Element → List Slot
  | Element.text t => t.Text.data.map Slot.rune
  | Element.widget w => [Slot.widget w]

/-- The slots of one line. -/
def lineSlots : List Element → List Slot
  | [] => []
  | el :: els => el.slots ++ lineSlots els

/-- The flattened stream of a sequence of lines: the slots of the lines with
one line break between consecutive lines. -/
def streamOf : List (List Element) → List Slot
  | [] => []
  | [l] => lineSlots l
  | l :: l2 :: ls => lineSlots l ++ Slot.lineBreak :: streamOf (l2 :: ls)

/-- The stream with the widget slots deleted. -/
def removeWidgets : List Slot → List Slot
  | [] => []
  | Slot.widget _ :: s => removeWidgets s
  | x :: s => x :: removeWidgets s

/-- The widgets of a stream, in order. -/
def streamWidgets : List Slot → List CtAnchoredWidget
  | [] => []
  | Slot.widget w :: s => w :: streamWidgets s
  | _ :: s => streamWidgets s

/-- The input lines as lines of elements (no widget). -/
def textLines (texts : List (List CtText)) : List (List Element) :=
  texts.map (fun line => line.map Element.text)

/-- The widgets among the elements of a result, in output order. -/
def widgetsOf : List Element → List CtAnchoredWidget
  | [] => []
  | Element.widget w :: els => w :: widgetsOf els
  | Element.text _ :: els => widgetsOf els

/-- The text elements among the elements of a result, in output order. -/
def textsOf : List Element → List CtText
  | [] => []
  | Element.text t :: els => t :: textsOf els
  | Element.widget _ :: els => textsOf els

/-- Concatenation of the texts of a sequence of runs, as runes. -/
def concatText : List CtText → List Char
  | [] => []
  | t :: ts => t.Text.data ++ concatText ts

/-- The runs with an empty text among a sequence of runs, in order. -/
def emptyRuns : List CtText → List CtText
  | [] => []
  | t :: ts => if t.Text = "" then t :: emptyRuns ts else emptyRuns ts

/-- The resultSet is `done ++ [cur]` and `currentLineIndex` points at `cur`. -/
def MergeState.WF (st : MergeState) : Prop :=
  ∃ done cur, st.resultSet = done ++ [cur] ∧ st.currentLineIndex = done.length

/-- The passes of the merge loop that continue: inserting the widget, closing
the line, emitting a functional run, emitting a whole fragment, splitting a
fragment at the widget. -/
inductive Moves : MergeState → MergeState → Prop where
  | insert (line : List CtText) (rest : List (List CtText)) (w : CtAnchoredWidget)
      (ws : List CtAnchoredWidget) (done : List (List Element)) (cur : List Element) (c : Int)
      (hoff : w.GetOffset = c)
      (hhead : line = [] ∨ ∃ t l, line = t :: l ∧ t.Text ≠ "") :
      Moves ⟨line :: rest, w :: ws, done ++ [cur], done.length, c⟩
        ⟨line :: rest, ws, done ++ [cur ++ [Element.widget w]], done.length, c + 1⟩
  | endOfLine (rest : List (List CtText)) (w : CtAnchoredWidget)
      (ws : List CtAnchoredWidget) (done : List (List Element)) (cur : List Element) (c : Int)
      (hoff : w.GetOffset ≠ c) :
      Moves ⟨[] :: rest, w :: ws, done ++ [cur], done.length, c⟩
        ⟨rest, w :: ws, done ++ [cur] ++ [[]], done.length + 1, c + 1⟩
  | functional (t : CtText) (l : List CtText) (rest : List (List CtText)) (w : CtAnchoredWidget)
      (ws : List CtAnchoredWidget) (done : List (List Element)) (cur : List Element) (c : Int)
      (hempty : t.Text = "") :
      Moves ⟨(t :: l) :: rest, w :: ws, done ++ [cur], done.length, c⟩
        ⟨l :: rest, w :: ws, done ++ [cur ++ [Element.text t]], done.length, c⟩
  | whole (t : CtText) (l : List CtText) (rest : List (List CtText)) (w : CtAnchoredWidget)
      (ws : List CtAnchoredWidget) (done : List (List Element)) (cur : List Element) (c : Int)
      (hne : t.Text ≠ "")
      (hoff : c + t.Text.length ≤ w.GetOffset) :
      Moves ⟨(t :: l) :: rest, w :: ws, done ++ [cur], done.length, c⟩
        ⟨l :: rest, w :: ws, done ++ [cur ++ [Element.text t]], done.length, c + t.Text.length⟩
  | split (t : CtText) (l : List CtText) (rest : List (List CtText)) (w : CtAnchoredWidget)
      (ws : List CtAnchoredWidget) (done : List (List Element)) (cur : List Element) (c : Int)
      (hlo : c < w.GetOffset)
      (hhi : w.GetOffset < c + t.Text.length) :
      Moves ⟨(t :: l) :: rest, w :: ws, done ++ [cur], done.length, c⟩
        ⟨({ t with Text := ⟨t.Text.data.drop (w.GetOffset - c).toNat⟩ } :: l) :: rest, ws,
          done ++ [cur ++ [Element.text { t with Text := ⟨t.Text.data.take (w.GetOffset - c).toNat⟩ }]
            ++ [Element.widget w]], done.length, w.GetOffset + 1⟩

/-- The passes of the merge loop that leave it: the lines are exhausted, the
widgets are exhausted and the remaining lines are flushed, or a non-empty
fragment is met with the widget offset already behind the counter. -/
inductive Stops : MergeState → MergeResult → Prop where
  | exhausted (ws : List CtAnchoredWidget) (rs : List (List Element)) (cli : Nat) (c : Int) :
      Stops ⟨[], ws, rs, cli, c⟩ (MergeResult.tree rs)
  | flushed (line : List CtText) (rest : List (List CtText)) (done : List (List Element))
      (cur : List Element) (c : Int) :
      Stops ⟨line :: rest, [], done ++ [cur], done.length, c⟩
        (MergeResult.tree (done ++ [cur ++ line.map Element.text] ++ textLines rest))
  | inconsistent (t : CtText) (l : List CtText) (rest : List (List CtText))
      (w : CtAnchoredWidget) (ws : List CtAnchoredWidget) (rs : List (List Element)) (cli : Nat)
      (c : Int) (hne : t.Text ≠ "") (hlt : w.GetOffset < c) :
      Stops ⟨(t :: l) :: rest, w :: ws, rs, cli, c⟩
        (offsetError ((t :: l) :: rest) cli c w.GetOffset)

/-- Total rune count of the fragments of the lines. -/
def runeCount (texts : List (List CtText)) : Nat :=
  (texts.flatten.map (fun t => t.Text.length)).sum

/-- The stream of the lines still to be merged. -/
def pending (texts : List (List CtText)) : List Slot := streamOf (textLines texts)

/-- The offsets of the pending widgets can be reached from the counter `c` when
the pending text ends at position `e`: each offset is at least the counter left
by its predecessor and at most the end of the text, which every widget placed
moves by one. -/
def Reachable : Int → Int → List CtAnchoredWidget → Prop
  | _, _, [] => True
  | c, e, w :: ws => c ≤ w.GetOffset ∧ w.GetOffset ≤ e ∧ Reachable (w.GetOffset + 1) (e + 1) ws

/-! ## Concrete values used in the examples -/

/-- A run without style attributes, as `NewCtText` builds it from a bare
`rich_text` element with text `s`. -/
def plainText (s : String) : CtText :=
  { Foreground := "", Background := "", Weight := "", Style := "", Underline := "",
    Strikethrough := "", Scale := "", Family := "", Link := "", Justification := "",
    Indent := 0, Text := s, Typ := CtDocElementText }

/-- A bare `rich_text` element of the markup with text `s` and foreground `fg`. -/
def plainRun (s : String) (fg : String) : XmlRichText :=
  { Foreground := fg, Background := "", Weight := "", Style := "", Underline := "",
    Strikethrough := "", Scale := "", Family := "", Link := "", Justification := "",
    Indent := 0, Text := s }

/-- An anchor widget, as `NewCtAnchor` builds it, at the given offset. -/
def anchorAt (offset : Int) (name : String) : CtAnchoredWidget :=
  CtAnchoredWidget.anchor
    { Typ := CtDocElementAnchor, Offset := offset, Justification := "", Name := name }

/-! ## Colour normaliser with spare capacity -/

/-- The same expression as `normalizeColor`, for a rune slice whose backing
array has capacity `cap` (at least the length): the array holds the runes
followed by zero runes, a slice expression is rejected at run time when its
upper bound exceeds the capacity (`none`), and it reads the zero runes
otherwise. -/
def normalizeColorCap (cap : Nat) (s : String) : Option String :=
  let runes := s.data ++ List.replicate (cap - s.data.length) (Char.ofNat 0)
  if cap < 11 then none
  else
    let arr1 := overwriteAt runes 3 ((runes.drop 5).take 2)
    let arr2 := overwriteAt arr1 5 ((arr1.drop 9).take 2)
    some ⟨arr2.take 7⟩

/-- A `rich_text` element with text "t", background "#ffff00000000",
foreground "#eded33333b3b" and weight "heavy". -/
def colouredRun : XmlRichText :=
  { Foreground := "#eded33333b3b", Background := "#ffff00000000", Weight := "heavy", Style := "",
    Underline := "", Strikethrough := "", Scale := "", Family := "", Link := "",
    Justification := "", Indent := 0, Text := "t" }

/-- A `rich_text` element with text "t" and background "#0000ffff8080". -/
def backgroundRun : XmlRichText :=
  { Foreground := "", Background := "#0000ffff8080", Weight := "", Style := "",
    Underline := "", Strikethrough := "", Scale := "", Family := "", Link := "",
    Justification := "", Indent := 0, Text := "t" }

/-! ## Storage rows (`api/table.go`) and widget constructors (`model.go`) -/

/-- Go `tChildren`. -/
structure tChildren where
  NodeId : Int
  FatherId : Int
  Sequence : Int
  deriving DecidableEq, Repr

/-- Go `ptNodeContent`. -/
structure ptNodeContent where
  NodeId : Int
  Txt : String
  Syntax : String
  IsRichtxt : Int
  HasCodebox : Int
  HasTable : Int
  HasImage : Int
  TsCreation : Int
  TsLastsave : Int
  deriving DecidableEq, Repr

/-- Go `tImage`; `Png` is `none` for a nil slice. -/
structure tImage where
  NodeId : Int
  Offset : Int
  Justification : String
  Anchor : String
  Png : Option (List Nat)
  Filename : String
  Link : String
  Time : Int
  deriving DecidableEq, Repr

/-- Go `tGrid`. -/
structure tGrid where
  NodeId : Int
  Offset : Int
  Justification : String
  Txt : String
  ColMin : Int
  ColMax : Int
  deriving DecidableEq, Repr

/-- Go `tCodeBox`. -/
structure tCodeBox where
  NodeId : Int
  Offset : Int
  Justification : String
  Txt : String
  Syntax : String
  Width : Int
  Height : Int
  IsWidthPixel : Int
  DoHighlightBraces : Int
  DoShowLineNumber : Int
  deriving DecidableEq, Repr

/-- One `row` element of Go `XmlGrid`. -/
structure XmlRow where
  Cells : List String
  deriving DecidableEq, Repr

/-- Go `XmlGrid`. -/
structure XmlGrid where
  Rows : List XmlRow
  deriving DecidableEq, Repr

/-- Go `NewCtCodeBox`. -/
def NewCtCodeBox (t : tCodeBox) : CtCodeBox :=
  { Typ := CtDocElementCodeBox, Offset := t.Offset, Justification := t.Justification,
    Code := t.Txt, Language := t.Syntax, Width := t.Width, Height := t.Height,
    IsWidthPixel := t.IsWidthPixel != 0, IsHighlightBraces := t.DoHighlightBraces != 0,
    IsShowLineNumber := t.DoShowLineNumber != 0 }

/-- Go `NewCtTable`; `unmarshal` stands for `xml.Unmarshal` into an `XmlGrid`
(`none`: the error on which the code panics).  The expression
`append(u.Rows[len(u.Rows)-1:], u.Rows[:len(u.Rows)-1]...)` panics on an empty
slice; otherwise it yields the last row followed by the rows before it (the
appended rows are written behind the last one, or into a new array, never over
the rows still to be read). -/
def NewCtTable (unmarshal : String → Option XmlGrid) (t : tGrid) : Option CtTable :=
  match unmarshal t.Txt with
  | none => none
  | some u =>
    if u.Rows.length = 0 then none
    else
      let rows := u.Rows.drop (u.Rows.length - 1) ++ u.Rows.take (u.Rows.length - 1)
      some { Typ := CtDocElementTable, Offset := t.Offset, Justification := t.Justification,
             Data := rows.map (fun r => r.Cells), MinColWidth := t.ColMin,
             MaxColWidth := t.ColMax }

/-- Go `NewCtPng`. -/
def NewCtPng (i : tImage) (width height : Int) (path : Option String) : CtPng :=
  { Typ := CtDocElementPng, Offset := i.Offset, Justification := i.Justification,
    Data := if path = none then i.Png else none,
    Width := width, Height := height, DiskPath := path }

/-- Go `NewCtEmbFile`. -/
def NewCtEmbFile (i : tImage) (path : Option String) : CtEmbFile :=
  { Typ := CtDocElementEmbFile, Offset := i.Offset, Justification := i.Justification,
    Data := if path = none then i.Png else none,
    Filename := i.Filename, DiskPath := path }

/-- Go `NewCtAnchor`. -/
def NewCtAnchor (i : tImage) : CtAnchor :=
  { Typ := CtDocElementAnchor, Offset := i.Offset, Justification := i.Justification,
    Name := i.Anchor }

/-- A `row` element with the single cell `name`. -/
def gridRow (name : String) : XmlRow := { Cells := [name] }

/-- A grid row of the store at offset 0 whose text is not inspected. -/
def sampleGrid : tGrid :=
  { NodeId := 1, Offset := 0, Justification := "left", Txt := "", ColMin := 40, ColMax := 400 }

/-! ## Node content assembler (`GetNodeById`, `GetNodeContentById`) -/

/-- Go `CtNodeContent`; `RichTexts` is `none` for the nil pointer. -/
structure CtNodeContent where
  Id : Int
  IsRichText : Bool
  RichTexts : Option (List (List Element))
  Language : String
  Code : String
  CreateTime : Int
  UpdateTime : Int
  deriving DecidableEq, Repr

/-- The errors `GetNodeContentById` returns to its caller, by origin. -/
inductive CtError where
  /-- the error of a storage query -/
  | storage
  /-- the error of `image.DecodeConfig` -/
  | imageDecode
  /-- the error of `os.Stat` on the destination directory -/
  | stat
  /-- the error of `os.OpenFile` or of `file.Write` -/
  | write
  /-- `errors.New(errInfo)` of the merge loop -/
  | offset (errInfo : String)
  deriving DecidableEq, Repr

/-- The answers of the store to the queries of one request (`dao.go`, and the
two `r.db.Where(...).Find(...)` calls of `GetNodeContentById`, whose errors the
code does not look at); `none` is a query that returns an error. -/
structure Db where
  selectNodeMetaById : Int → Option ptNodeMeta
  selectChildrenByFatherId : Int → Option (List tChildren)
  selectNodeContentById : Int → Option ptNodeContent
  findCodeBoxes : Int → List tCodeBox
  findTables : Int → List tGrid
  selectImagesByNodeId : Int → Option (List tImage)

/-- The library calls of `GetNodeContentById` that are not part of the
repository, as functions of their arguments. -/
structure Env where
  /-- `image.DecodeConfig(bytes.NewReader(png))`: width and height, `none` for an error -/
  decodeConfig : Option (List Nat) → Option (Int × Int)
  /-- `path.Clean` -/
  pathClean : String → String
  /-- `os.Mkdir(dir, 0755)` followed by `os.Stat(dir)`: whether `Stat` succeeds -/
  statOk : String → Bool
  /-- `os.OpenFile(filepath, ...)` followed by `file.Write(png)`: whether both succeed -/
  writeOk : String → Option (List Nat) → Bool
  /-- `xml.Unmarshal` into an `XmlGrid` -/
  unmarshalGrid : String → Option XmlGrid
  /-- `xml.Unmarshal` into an `XmlDocument`: its `RichTexts` -/
  unmarshalDocument : String → Option (List XmlRichText)
  /-- `sort.Slice` with the order of the offsets -/
  sortSlice : List CtAnchoredWidget → List CtAnchoredWidget

/-- What `GetNodeContentById` can end with. -/
inductive ContentResult where
  /-- `return &ret, nil` -/
  | ok (ret : CtNodeContent)
  /-- `return nil, err` -/
  | failed (err : CtError)
  /-- a run-time panic -/
  | crash
  /-- the iteration budget of the merge loop was used up -/
  | unfinished
  deriving DecidableEq, Repr

/-- Go `GetNodeById`; the error of `selectChildrenByFatherId` is dropped and
its nil list counts as no children. -/
def GetNodeById (db : Db) (id : Int) : Option CtNode :=
  match db.selectNodeMetaById id with
  | none => none
  | some nm =>
    let c := (db.selectChildrenByFatherId id).getD []
    some (NewCtNode nm (decide (c.length > 0)))

/-- The loop of Go `path.Ext` over the bytes from the end: `rev` holds the
bytes still to be visited, last first, and `suffix` those already passed. -/
def extLoop : List Char → List Char → List Char
  | [], _ => []
  | c :: rev, suffix =>
    if c = '/' then []
    else if c = '.' then c :: suffix
    else extLoop rev (c :: suffix)

/-- Go `path.Ext`: the suffix beginning at the final dot in the final
slash-separated element of the path, empty if there is no dot. -/
def pathExt (p : String) : String := ⟨extLoop p.data.reverse []⟩

/-- Go `path.Join(dir, filename)` for a non-empty `filename`: an empty `dir`
is ignored, the elements are joined by a slash and the result is cleaned. -/
def pathJoin (env : Env) (dir filename : String) : String :=
  env.pathClean (if dir = "" then filename else dir ++ "/" ++ filename)

/-- One pass through the body of `for _, img := range images`. -/
inductive ImageStep where
  /-- `continue` without a widget (the LaTeX placeholder) -/
  | skip
  /-- a widget is appended to `anchoredWidgets` -/
  | add (w : CtAnchoredWidget)
  /-- `return nil, err` -/
  | failed (err : CtError)
  deriving DecidableEq, Repr

/-- The body of `for _, img := range images { ... }`. -/
def imageStep (env : Env) (pathToSaveBinary : Option String) (img : tImage) : ImageStep :=
  if img.Anchor ≠ "" then
    ImageStep.add (CtAnchoredWidget.anchor (NewCtAnchor img))
  else if img.Filename = "__ct_special.tex" then
    ImageStep.skip
  else
    match pathToSaveBinary with
    | none =>
      if img.Filename ≠ "" then
        match env.decodeConfig img.Png with
        | none => ImageStep.failed CtError.imageDecode
        | some (width, height) =>
          ImageStep.add (CtAnchoredWidget.png (NewCtPng img width height none))
      else
        ImageStep.add (CtAnchoredWidget.embFile (NewCtEmbFile img none))
    | some dir =>
      if env.statOk dir = false then ImageStep.failed CtError.stat
      else if img.Filename ≠ "" then
        let filename := toString img.NodeId ++ "_" ++ toString img.Offset ++ pathExt img.Filename
        let filepath := pathJoin env dir filename
        if env.writeOk filepath img.Png = false then ImageStep.failed CtError.write
        else ImageStep.add (CtAnchoredWidget.embFile (NewCtEmbFile img (some filepath)))
      else
        let filename := toString img.NodeId ++ "_" ++ toString img.Offset ++ ".png"
        let filepath := pathJoin env dir filename
        match env.decodeConfig img.Png with
        | none => ImageStep.failed CtError.imageDecode
        | some (width, height) =>
          if env.writeOk filepath img.Png = false then ImageStep.failed CtError.write
          else ImageStep.add (CtAnchoredWidget.png (NewCtPng img width height (some filepath)))

/-- The loop `for _, img := range images { ... }` on the widgets collected so
far; `Except.error` is `return nil, err`. -/
def imageLoop (env : Env) (pathToSaveBinary : Option String) :
    List tImage → List CtAnchoredWidget → Except CtError (List CtAnchoredWidget)
  | [], anchoredWidgets => Except.ok anchoredWidgets
  | img :: images, anchoredWidgets =>
    match imageStep env pathToSaveBinary img with
    | ImageStep.skip => imageLoop env pathToSaveBinary images anchoredWidgets
    | ImageStep.add w => imageLoop env pathToSaveBinary images (anchoredWidgets ++ [w])
    | ImageStep.failed err => Except.error err

/-- The loop `for _, grid := range tables { ... }`; `none` is a panic of
`NewCtTable`. -/
def tableLoop (env : Env) :
    List tGrid → List CtAnchoredWidget → Option (List CtAnchoredWidget)
  | [], anchoredWidgets => some anchoredWidgets
  | grid :: tables, anchoredWidgets =>
    match NewCtTable env.unmarshalGrid grid with
    | none => none
    | some tbl => tableLoop env tables (anchoredWidgets ++ [CtAnchoredWidget.table tbl])

/-- Go `GetNodeContentById`. -/
def GetNodeContentById (env : Env) (db : Db) (id : Int) (pathToSaveBinary : Option String) :
    ContentResult :=
  match GetNodeById db id with
  | none => ContentResult.failed CtError.storage
  | some nodeMeta =>
    match db.selectNodeContentById id with
    | none => ContentResult.failed CtError.storage
    | some raw =>
      let ret : CtNodeContent :=
        { Id := raw.NodeId, CreateTime := raw.TsCreation, UpdateTime := raw.TsLastsave,
          IsRichText := nodeMeta.IsRichText, RichTexts := none, Language := "", Code := "" }
      if ret.IsRichText = false then
        ContentResult.ok { ret with Language := raw.Syntax, Code := raw.Txt }
      else
        let codeBoxes := (db.findCodeBoxes id).map
          (fun codeBox => CtAnchoredWidget.codeBox (NewCtCodeBox codeBox))
        match tableLoop env (db.findTables id) codeBoxes with
        | none => ContentResult.crash
        | some withTables =>
          match db.selectImagesByNodeId id with
          | none => ContentResult.failed CtError.storage
          | some images =>
            match imageLoop env pathToSaveBinary images withTables with
            | Except.error err => ContentResult.failed err
            | Except.ok collected =>
              let anchoredWidgets := env.sortSlice collected
              match env.unmarshalDocument raw.Txt with
              | none => ContentResult.crash
              | some richTexts =>
                match reconstruct richTexts anchoredWidgets with
                | MergeResult.tree resultSet =>
                  ContentResult.ok { ret with RichTexts := some resultSet }
                | MergeResult.error errInfo => ContentResult.failed (CtError.offset errInfo)
                | MergeResult.crash => ContentResult.crash
                | MergeResult.unfinished => ContentResult.unfinished

/-! ## Concrete store and library answers used in the examples -/

/-- The first bytes of a PNG file, standing for an image. -/
def samplePng : List Nat := [137, 80, 78, 71]

/-- An image row of node 2 at offset 1 without anchor and without filename: a
PNG image. -/
def pngRow : tImage :=
  { NodeId := 2, Offset := 1, Justification := "left", Anchor := "", Png := some samplePng,
    Filename := "", Link := "", Time := 0 }

/-- An image row of node 2 at offset 1 without anchor and with the filename
"doc.pdf": an attachment whose bytes are not an image. -/
def attachmentRow : tImage :=
  { NodeId := 2, Offset := 1, Justification := "left", Anchor := "",
    Png := some [37, 80, 68, 70], Filename := "doc.pdf", Link := "", Time := 0 }

/-- Library answers: only `samplePng` decodes as an image (2 by 3 pixels),
paths are clean already, the directory exists and files can be written, the
markup of node 2 decodes to the single run "Hi", and the widgets are left in
the order they were collected (at most one in the examples). -/
def sampleEnv : Env :=
  { decodeConfig := fun png => if png = some samplePng then some (2, 3) else none
    pathClean := fun p => p
    statOk := fun _ => true
    writeOk := fun _ _ => true
    unmarshalGrid := fun _ => none
    unmarshalDocument := fun txt =>
      if txt = "<node><rich_text>Hi</rich_text></node>" then some [plainRun "Hi" ""] else none
    sortSlice := fun ws => ws }

/-- A store with the plain node 1 (syntax "python", text "print(1)") and the
rich-text node 2 (text "Hi", the image rows `images`). -/
def sampleDb (images : List tImage) : Db :=
  { selectNodeMetaById := fun id =>
      if id = 1 then some ⟨1, "code", "python", 0, 0, 0⟩
      else if id = 2 then some ⟨2, "page", "custom-colors", 0, 1, 0⟩
      else none
    selectChildrenByFatherId := fun _ => some []
    selectNodeContentById := fun id =>
      if id = 1 then some ⟨1, "print(1)", "python", 0, 0, 0, 0, 100, 200⟩
      else if id = 2 then
        some ⟨2, "<node><rich_text>Hi</rich_text></node>", "custom-colors", 1, 0, 0, 1, 100, 200⟩
      else none
    findCodeBoxes := fun _ => []
    findTables := fun _ => []
    selectImagesByNodeId := fun id => if id = 2 then some images else some [] }

/-! ## Packing the decoded flags again -/

/-- Go conversion `int32(w)` of a `uint32`: the same 32 bits read signed. -/
def toInt32 (w : Int) : Int :=
  if w % 2 ^ 32 < 2 ^ 31 then w % 2 ^ 32 else w % 2 ^ 32 - 2 ^ 32

/-- The packed `isRichtxt` rebuilt from the decoded fields, in the words of the
claim: `Color` shifted left by 3 as a 32-bit word, OR'ed with `IsCustomColor`
at bit 2, `IsBold` at bit 1 and `IsRichText` at bit 0, read as `int32`. -/
def packRichtxt (n : CtNode) : Int :=
  toInt32 (Int.lor (Int.lor (Int.lor (toUint32 (n.Color * 2 ^ 3))
    (if n.IsCustomColor then 0b0100 else 0)) (if n.IsBold then 0b0010 else 0))
    (if n.IsRichText then 0b0001 else 0))

/-- The packed `isRo` rebuilt from the decoded fields: `Icon` shifted left by 1
as a 32-bit word, OR'ed with `IsReadOnly` at bit 0, read as `int32`. -/
def packRo (n : CtNode) : Int :=
  toInt32 (Int.lor (toUint32 (n.Icon * 2 ^ 1)) (if n.IsReadOnly then 0b1 else 0))

end Ctb

namespace Ctb

/-! ## Flag decoder: lemmas and theorem -/

theorem land_zero_right (m : Int) : Int.land m 0 = 0 := by
  cases m with
  | ofNat m => simp [Int.land]
  | negSucc m =>
    show ((Nat.ldiff 0 m : Nat) : Int) = 0
    simp [Nat.ldiff]

/-- Conjunction with a one-bit mask keeps exactly that bit. -/
theorem land_two_pow (k : Nat) :
    ∀ x : Int, Int.land x (2 ^ k) = if x.testBit k then 2 ^ k else 0 := by
  induction k with
  | zero =>
    intro x
    have hx := Int.bit_decomp x
    have h1 : (2 : Int) ^ 0 = Int.bit true 0 := by decide
    rw [h1]
    conv_lhs => rw [← hx]
    rw [Int.land_bit, land_zero_right]
    conv_rhs => rw [← hx]
    rw [Int.testBit_bit_zero]
    cases x.bodd <;> simp [Int.bit]
  | succ k ih =>
    intro x
    have hx := Int.bit_decomp x
    have h1 : (2 : Int) ^ (k + 1) = Int.bit false (2 ^ k) := by
      simp [Int.bit, pow_succ]; ring
    rw [h1]
    conv_lhs => rw [← hx]
    rw [Int.land_bit, ih]
    conv_rhs => rw [← hx]
    rw [Int.testBit_bit_succ]
    cases x.div2.testBit k <;> simp [Int.bit]

theorem land_mask_ne_zero (x : Int) (k : Nat) :
    (Int.land x (2 ^ k) != 0) = x.testBit k := by
  rw [land_two_pow]
  cases x.testBit k <;> simp

theorem toUint32_shiftRight (x : Int) (s : Nat) :
    toUint32 (Int.shiftRight x s) = (x / 2 ^ s) % 2 ^ 32 := by
  have h := Int.shiftRight_eq_div_pow x s
  have h2 : Int.shiftRight x s = x / 2 ^ s := by
    rw [← Nat.cast_ofNat, ← Nat.cast_pow]; exact h
  rw [toUint32, h2]

/-- C10. Flag decoding: for signed 32-bit `isRo` and `isRichtxt`, `NewCtNode`
sets `IsRichText`, `IsBold`, `IsCustomColor` to bits 0, 1, 2 of `isRichtxt`,
`Color` to `isRichtxt` shifted right by 3 (arithmetically, read as `uint32`:
`isRichtxt / 8` for a non-negative value, `isRichtxt / 8 + 2^32` for a negative
one), `IsReadOnly` to bit 0 of `isRo`, `Icon` to `isRo` shifted right by 1 in
the same way, and copies `Id`, `Name`, `Syntax` and `HasChildren`. -/
theorem NewCtNode_decodes_flags (pt : ptNodeMeta) (hasChildren : Bool)
    (hRo : isInt32 pt.IsRo) (hRt : isInt32 pt.IsRichtxt) :
    (NewCtNode pt hasChildren).IsRichText = pt.IsRichtxt.testBit 0 ∧
    (NewCtNode pt hasChildren).IsBold = pt.IsRichtxt.testBit 1 ∧
    (NewCtNode pt hasChildren).IsCustomColor = pt.IsRichtxt.testBit 2 ∧
    (NewCtNode pt hasChildren).Color = (pt.IsRichtxt / 2 ^ 3) % 2 ^ 32 ∧
    (0 ≤ pt.IsRichtxt → (NewCtNode pt hasChildren).Color = pt.IsRichtxt / 8) ∧
    (pt.IsRichtxt < 0 → (NewCtNode pt hasChildren).Color = pt.IsRichtxt / 8 + 2 ^ 32) ∧
    (NewCtNode pt hasChildren).IsReadOnly = pt.IsRo.testBit 0 ∧
    (NewCtNode pt hasChildren).Icon = (pt.IsRo / 2 ^ 1) % 2 ^ 32 ∧
    (0 ≤ pt.IsRo → (NewCtNode pt hasChildren).Icon = pt.IsRo / 2) ∧
    (pt.IsRo < 0 → (NewCtNode pt hasChildren).Icon = pt.IsRo / 2 + 2 ^ 32) ∧
    (NewCtNode pt hasChildren).Id = pt.NodeId ∧
    (NewCtNode pt hasChildren).Name = pt.Name ∧
    (NewCtNode pt hasChildren).Syntax = pt.Syntax ∧
    (NewCtNode pt hasChildren).HasChildren = hasChildren := by
  obtain ⟨hRo1, hRo2⟩ := hRo
  obtain ⟨hRt1, hRt2⟩ := hRt
  have hc : (NewCtNode pt hasChildren).Color = (pt.IsRichtxt / 2 ^ 3) % 2 ^ 32 :=
    toUint32_shiftRight pt.IsRichtxt 3
  have hi : (NewCtNode pt hasChildren).Icon = (pt.IsRo / 2 ^ 1) % 2 ^ 32 :=
    toUint32_shiftRight pt.IsRo 1
  refine ⟨land_mask_ne_zero pt.IsRichtxt 0, land_mask_ne_zero pt.IsRichtxt 1,
    land_mask_ne_zero pt.IsRichtxt 2, hc, ?_, ?_, land_mask_ne_zero pt.IsRo 0, hi, ?_, ?_,
    rfl, rfl, rfl, rfl⟩
  · intro h0
    rw [hc]; omega
  · intro h0
    rw [hc]; omega
  · intro h0
    rw [hi]; omega
  · intro h0
    rw [hi]; omega

/-- C10, at `isRichtxt = 0b0111`, `isRo = 0b101`: rich text, bold and custom
colour are all set, the colour is 0, the node is read-only with icon 2. -/
theorem NewCtNode_decodes_flags_witness :
    isInt32 0b101 ∧ isInt32 0b0111 ∧
    (NewCtNode ⟨1, "n", "custom-colors", 0b101, 0b0111, 0⟩ true).IsRichText = true ∧
    (NewCtNode ⟨1, "n", "custom-colors", 0b101, 0b0111, 0⟩ true).IsBold = true ∧
    (NewCtNode ⟨1, "n", "custom-colors", 0b101, 0b0111, 0⟩ true).IsCustomColor = true ∧
    (NewCtNode ⟨1, "n", "custom-colors", 0b101, 0b0111, 0⟩ true).Color = 0 ∧
    (NewCtNode ⟨1, "n", "custom-colors", 0b101, 0b0111, 0⟩ true).IsReadOnly = true ∧
    (NewCtNode ⟨1, "n", "custom-colors", 0b101, 0b0111, 0⟩ true).Icon = 2 := by
  have h := NewCtNode_decodes_flags ⟨1, "n", "custom-colors", 0b101, 0b0111, 0⟩ true
    (by decide) (by decide)
  obtain ⟨h1, h2, h3, _, h5, _, h7, _, h9, _⟩ := h
  exact ⟨by decide, by decide, h1.trans (by decide), h2.trans (by decide), h3.trans (by decide),
    (h5 (by decide)).trans (by decide), h7.trans (by decide), (h9 (by decide)).trans (by decide)⟩


/-! ## The merge loop: basic facts -/

theorem appendAt_last {α : Type} (done : List (List α)) (cur : List α) (el : α) :
    appendAt (done ++ [cur]) done.length el = some (done ++ [cur ++ [el]]) := by
  induction done with
  | nil => rfl
  | cons d ds ih => simp [appendAt, ih]

theorem appendLine_last (line : List CtText) :
    ∀ (done : List (List Element)) (cur : List Element),
      appendLine line (done ++ [cur]) done.length
        = some (done ++ [cur ++ line.map Element.text]) := by
  induction line with
  | nil => intro done cur; simp [appendLine]
  | cons t ts ih =>
    intro done cur
    simp [appendLine, appendAt_last, ih]

theorem flush_last (rest : List (List CtText)) :
    ∀ (line : List CtText) (done : List (List Element)) (cur : List Element),
      flush (line :: rest) (done ++ [cur]) done.length
        = some (done ++ [cur ++ line.map Element.text] ++ textLines rest) := by
  induction rest with
  | nil => intro line done cur; simp [flush, appendLine_last, textLines]
  | cons l2 rest ih =>
    intro line done cur
    have h := ih l2 (done ++ [cur ++ line.map Element.text]) []
    simp only [List.length_append, List.length_singleton] at h
    rw [flush, appendLine_last]
    simp only [List.length_cons, Nat.zero_lt_succ, if_true]
    rw [h]
    simp [textLines]

theorem text_length_eq_zero_iff (s : String) : s.length = 0 ↔ s = "" := by
  constructor
  · intro h
    cases s with
    | mk d =>
      cases d with
      | nil => rfl
      | cons c cs => simp [String.length] at h
  · intro h
    subst h
    rfl

/-- A pass that continues is one of the five moves. -/
theorem mergeStep_next (st st1 : MergeState) (hwf : st.WF) (h : mergeStep st = StepResult.next st1) :
    Moves st st1 := by
  obtain ⟨done, cur, hrs, hcli⟩ := hwf
  obtain ⟨texts, widgets, rs, cli, c⟩ := st
  simp only at hrs hcli
  subst hrs hcli
  unfold mergeStep at h
  simp only at h
  split at h
  · cases h
  · rename_i line rest
    split at h
    · split at h <;> cases h
    · rename_i w ws
      split at h
      · split at h
        · rename_i hoff
          simp only [stepOfAppend, appendAt_last, StepResult.next.injEq] at h
          subst h
          exact Moves.insert [] rest w ws done cur c hoff (Or.inl rfl)
        · rename_i hoff
          simp only [StepResult.next.injEq] at h
          subst h
          exact Moves.endOfLine rest w ws done cur c hoff
      · rename_i t l
        split at h
        · rename_i hoff
          simp only [stepOfAppend, appendAt_last, StepResult.next.injEq] at h
          subst h
          exact Moves.insert (t :: l) rest w ws done cur c hoff.1 (Or.inr ⟨t, l, rfl, hoff.2⟩)
        · rename_i hoff
          split at h
          · rename_i hlen
            simp only [stepOfAppend, appendAt_last, StepResult.next.injEq] at h
            subst h
            have : t.Text = "" := (text_length_eq_zero_iff _).1 (by exact_mod_cast hlen)
            exact Moves.functional t l rest w ws done cur c this
          · rename_i hlen
            have hne : t.Text ≠ "" := fun e => hlen (by simp [e])
            split at h
            · cases h
            · split at h
              · split at h
                · rename_i h1 h2 h3
                  simp only [stepOfAppend, appendAt_last, StepResult.next.injEq] at h
                  subst h
                  exact Moves.whole t l rest w ws done cur c hne (le_of_lt h3)
                · split at h
                  · rename_i h1 h2 h3 h4
                    simp only [stepOfAppend, appendAt_last, StepResult.next.injEq] at h
                    subst h
                    exact Moves.split t l rest w ws done cur c h2 h4
                  · rename_i h1 h2 h3 h4
                    simp only [stepOfAppend, appendAt_last, StepResult.next.injEq] at h
                    subst h
                    exact Moves.whole t l rest w ws done cur c hne (by omega)
              · rename_i h1 h2
                exfalso
                exact hoff ⟨by omega, hne⟩


/-- A pass that leaves the loop is one of the three stops. -/
theorem mergeStep_done (st : MergeState) (r : MergeResult) (hwf : st.WF)
    (h : mergeStep st = StepResult.done r) : Stops st r := by
  obtain ⟨done, cur, hrs, hcli⟩ := hwf
  obtain ⟨texts, widgets, rs, cli, c⟩ := st
  simp only at hrs hcli
  subst hrs hcli
  unfold mergeStep at h
  simp only at h
  split at h
  · simp only [StepResult.done.injEq] at h
    subst h
    exact Stops.exhausted _ _ _ _
  · rename_i line rest
    split at h
    · rw [flush_last] at h
      simp only [StepResult.done.injEq] at h
      subst h
      exact Stops.flushed line rest done cur c
    · rename_i w ws
      split at h
      · split at h
        · simp only [stepOfAppend, appendAt_last] at h
          cases h
        · cases h
      · rename_i t l
        split at h
        · simp only [stepOfAppend, appendAt_last] at h
          cases h
        · rename_i hoff
          split at h
          · simp only [stepOfAppend, appendAt_last] at h
            cases h
          · rename_i hlen
            have hne : t.Text ≠ "" := fun e => hlen (by simp [e])
            split at h
            · rename_i hlt
              simp only [StepResult.done.injEq] at h
              subst h
              exact Stops.inconsistent t l rest w ws _ _ c hne hlt
            · split at h
              · split at h
                · simp only [stepOfAppend, appendAt_last] at h
                  cases h
                · split at h
                  · simp only [stepOfAppend, appendAt_last] at h
                    cases h
                  · simp only [stepOfAppend, appendAt_last] at h
                    cases h
              · cases h

theorem Moves.wf {st st1 : MergeState} (h : Moves st st1) : st1.WF := by
  cases h with
  | insert line rest w ws done cur c hoff hhead => exact ⟨done, _, rfl, rfl⟩
  | endOfLine rest w ws done cur c hoff => exact ⟨done ++ [cur], [], rfl, by simp⟩
  | functional t l rest w ws done cur c hempty => exact ⟨done, _, rfl, rfl⟩
  | whole t l rest w ws done cur c hne hoff => exact ⟨done, _, rfl, rfl⟩
  | split t l rest w ws done cur c hlo hhi => exact ⟨done, _, rfl, rfl⟩

theorem Moves.measure_lt {st st1 : MergeState} (h : Moves st st1) :
    mergeMeasure st1 < mergeMeasure st := by
  cases h <;> simp [mergeMeasure]

theorem offsetError_ne_tree (texts : List (List CtText)) (cli : Nat) (c o : Int)
    (rs : List (List Element)) : offsetError texts cli c o ≠ MergeResult.tree rs := by
  unfold offsetError
  simp only
  split
  · simp
  · split
    · simp
    · split <;> simp

theorem mergeInit_wf (texts : List (List CtText)) (ws : List CtAnchoredWidget) :
    (mergeInit texts ws).WF := ⟨[], [], rfl, rfl⟩


theorem offsetError_ne_unfinished (texts : List (List CtText)) (cli : Nat) (c o : Int) :
    offsetError texts cli c o ≠ MergeResult.unfinished := by
  unfold offsetError
  simp only
  split
  · simp
  · split
    · simp
    · split <;> simp

/-- The iteration budget is never used up: a loop started with more passes
than `mergeMeasure` leaves through one of the three stops. -/
theorem mergeLoop_finishes (fuel : Nat) :
    ∀ st : MergeState, st.WF → mergeMeasure st < fuel →
      mergeLoop fuel st ≠ MergeResult.unfinished := by
  induction fuel with
  | zero => intro st _ h; omega
  | succ fuel ih =>
    intro st hwf hfuel
    rw [mergeLoop]
    cases hstep : mergeStep st with
    | done r =>
      simp only
      have hs := mergeStep_done st r hwf hstep
      cases hs with
      | exhausted ws rs cli c => simp
      | flushed line rest done cur c => simp
      | inconsistent t l rest w ws rs cli c hne hlt => exact offsetError_ne_unfinished _ _ _ _
    | next st1 =>
      simp only
      have hm := mergeStep_next st st1 hwf hstep
      have hlt := hm.measure_lt
      exact ih st1 hm.wf (by omega)

/-! ## What a returned tree contains, for every input -/

@[simp] theorem textsOf_append (a b : List Element) : textsOf (a ++ b) = textsOf a ++ textsOf b := by
  induction a with
  | nil => rfl
  | cons x xs ih => cases x <;> simp [textsOf, ih]

@[simp] theorem widgetsOf_append (a b : List Element) :
    widgetsOf (a ++ b) = widgetsOf a ++ widgetsOf b := by
  induction a with
  | nil => rfl
  | cons x xs ih => cases x <;> simp [widgetsOf, ih]

@[simp] theorem textsOf_map_text (l : List CtText) : textsOf (l.map Element.text) = l := by
  induction l with
  | nil => rfl
  | cons x xs ih => simp [textsOf, ih]

@[simp] theorem widgetsOf_map_text (l : List CtText) : widgetsOf (l.map Element.text) = [] := by
  induction l with
  | nil => rfl
  | cons x xs ih => simp [widgetsOf, ih]

@[simp] theorem concatText_append (a b : List CtText) :
    concatText (a ++ b) = concatText a ++ concatText b := by
  induction a with
  | nil => rfl
  | cons x xs ih => simp [concatText, ih]

@[simp] theorem emptyRuns_append (a b : List CtText) :
    emptyRuns (a ++ b) = emptyRuns a ++ emptyRuns b := by
  induction a with
  | nil => rfl
  | cons x xs ih => by_cases h : x.Text = "" <;> simp [emptyRuns, h, ih]

theorem textLines_flatten (texts : List (List CtText)) :
    (textLines texts).flatten = texts.flatten.map Element.text := by
  induction texts with
  | nil => rfl
  | cons l ls ih =>
    simp only [textLines, List.map_cons, List.flatten_cons, List.map_append] at ih ⊢
    rw [ih]

theorem string_ne_empty_of_data (d : List Char) (h : d ≠ []) : (String.mk d) ≠ "" := by
  intro e
  apply h
  have : (String.mk d).data = ("" : String).data := by rw [e]
  simpa using this

/-- Every tree the loop returns extends the elements already emitted by
elements whose texts concatenate to the pending text, whose empty runs are the
pending empty runs, and whose widgets are the first of the pending widgets. -/
theorem mergeLoop_tree_elements (fuel : Nat) :
    ∀ (st : MergeState) (rs : List (List Element)), st.WF →
      mergeLoop fuel st = MergeResult.tree rs →
      ∃ els rest, rs.flatten = st.resultSet.flatten ++ els ∧
        concatText (textsOf els) = concatText st.texts.flatten ∧
        emptyRuns (textsOf els) = emptyRuns st.texts.flatten ∧
        st.anchoredWidgets = widgetsOf els ++ rest := by
  induction fuel with
  | zero => intro st rs _ h; simp [mergeLoop] at h
  | succ fuel ih =>
    intro st rs hwf h
    rw [mergeLoop] at h
    cases hstep : mergeStep st with
    | done r =>
      rw [hstep] at h
      simp only at h
      subst h
      have hs := mergeStep_done st _ hwf hstep
      generalize hr : MergeResult.tree rs = r at hs
      cases hs with
      | exhausted ws rs1 cli c =>
        cases hr
        exact ⟨[], ws, by simp, rfl, rfl, rfl⟩
      | flushed line rest done cur c =>
        cases hr
        refine ⟨(line :: rest).flatten.map Element.text, [], ?_, ?_, ?_, ?_⟩
        · simp [textLines_flatten]
        · simp [textLines, ← List.map_flatten]
        · simp [textLines, ← List.map_flatten]
        · simp [textLines, ← List.map_flatten]
      | inconsistent t l rest w ws rs1 cli c hne hlt =>
        exact absurd hr.symm (offsetError_ne_tree _ _ _ _ _)
    | next st1 =>
      rw [hstep] at h
      simp only at h
      have hm := mergeStep_next st st1 hwf hstep
      obtain ⟨els, rest1, h1, h2, h3, h4⟩ := ih st1 rs hm.wf h
      cases hm with
      | insert line rest w ws done cur c hoff hhead =>
        refine ⟨Element.widget w :: els, rest1, ?_, ?_, ?_, ?_⟩
        · simp only at h1; rw [h1]; simp
        · simpa [textsOf] using h2
        · simpa [textsOf] using h3
        · simp only at h4; simp [widgetsOf, h4]
      | endOfLine rest w ws done cur c hoff =>
        refine ⟨els, rest1, ?_, ?_, ?_, ?_⟩
        · simp only at h1; rw [h1]; simp
        · simpa using h2
        · simpa using h3
        · exact h4
      | functional t l rest w ws done cur c hempty =>
        refine ⟨Element.text t :: els, rest1, ?_, ?_, ?_, ?_⟩
        · simp only at h1; rw [h1]; simp
        · simp only [List.flatten_cons, concatText_append] at h2
          simp [textsOf, concatText, h2]
        · simp only [List.flatten_cons, emptyRuns_append] at h3
          simp [textsOf, emptyRuns, hempty, h3]
        · simp only at h4; simp [widgetsOf, h4]
      | whole t l rest w ws done cur c hne hoff =>
        refine ⟨Element.text t :: els, rest1, ?_, ?_, ?_, ?_⟩
        · simp only at h1; rw [h1]; simp
        · simp only [List.flatten_cons, concatText_append] at h2
          simp [textsOf, concatText, h2]
        · simp only [List.flatten_cons, emptyRuns_append] at h3
          simp [textsOf, emptyRuns, hne, h3]
        · simp only at h4; simp [widgetsOf, h4]
      | split t l rest w ws done cur c hlo hhi =>
        have hlen : ((w.GetOffset - c).toNat : Int) = w.GetOffset - c := Int.toNat_of_nonneg (by omega)
        have hcut0 : 0 < (w.GetOffset - c).toNat := by omega
        have hcut1 : (w.GetOffset - c).toNat < t.Text.data.length := by
          have : (t.Text.data.length : Int) = t.Text.length := rfl
          omega
        have hleft : (String.mk (t.Text.data.take (w.GetOffset - c).toNat)) ≠ "" := by
          apply string_ne_empty_of_data
          intro e
          have := congrArg List.length e
          simp at this
          omega
        have hright : (String.mk (t.Text.data.drop (w.GetOffset - c).toNat)) ≠ "" := by
          apply string_ne_empty_of_data
          intro e
          have := congrArg List.length e
          simp at this
          omega
        have hne : t.Text ≠ "" := by
          intro e
          rw [e] at hcut1
          simp at hcut1
        refine ⟨Element.text { t with Text := ⟨t.Text.data.take (w.GetOffset - c).toNat⟩ } ::
          Element.widget w :: els, rest1, ?_, ?_, ?_, ?_⟩
        · simp only at h1; rw [h1]; simp
        · simp only [List.flatten_cons, concatText_append] at h2
          simp only [textsOf, concatText, h2, List.flatten_cons, concatText_append]
          simp
          rw [← List.append_assoc, List.take_append_drop]
        · simp only [List.flatten_cons, emptyRuns_append] at h3
          simp [textsOf, emptyRuns, hleft, hright, hne, h3] at h3 ⊢
        · simp only at h4; simp [widgetsOf, h4]


/-! ## The merger: theorems that follow from one or two passes -/

/-- C7. No-widget pass-through: with an empty widget sequence the merger
returns the input lines unchanged, line for line and fragment for fragment
(the line buffer of `GetNodeContentById` always holds a first line). -/
theorem merge_without_widgets (line : List CtText) (rest : List (List CtText)) :
    merge (line :: rest) [] = MergeResult.tree (textLines (line :: rest)) ∧
    (textLines (line :: rest)).length = (line :: rest).length ∧
    ∀ i (h : i < (line :: rest).length),
      (textLines (line :: rest))[i]? = some (((line :: rest).get ⟨i, h⟩).map Element.text) := by
  refine ⟨?_, by simp [textLines], ?_⟩
  · have h := flush_last rest line [] []
    simp only [List.nil_append, List.length_nil] at h
    simp [merge, mergeInit, mergeLoop, mergeStep, h, textLines]
  · intro i h
    rw [textLines, List.getElem?_map, List.getElem?_eq_getElem h]
    rfl

/-- C2. Mid-fragment split: a single line with one fragment `t` of `n` runes
and one widget at offset `o`, `0 < o < n`, gives exactly one line
`[left, widget, right]`; `left` and `right` are copies of `t` whose texts are
the first `o` runes and the remaining `n - o` runes of the text of `t`. -/
theorem merge_splits_fragment (t : CtText) (w : CtAnchoredWidget)
    (h0 : 0 < w.GetOffset) (h1 : w.GetOffset < t.Text.length) :
    merge [[t]] [w] = MergeResult.tree
      [[Element.text { t with Text := ⟨t.Text.data.take w.GetOffset.toNat⟩ },
        Element.widget w,
        Element.text { t with Text := ⟨t.Text.data.drop w.GetOffset.toNat⟩ }]] ∧
    ((String.mk (t.Text.data.take w.GetOffset.toNat)).length : Int) = w.GetOffset ∧
    ((String.mk (t.Text.data.drop w.GetOffset.toNat)).length : Int)
      = t.Text.length - w.GetOffset := by
  have hn : (w.GetOffset.toNat : Int) = w.GetOffset := Int.toNat_of_nonneg (le_of_lt h0)
  refine ⟨?_, ?_, ?_⟩
  · have e1 : ¬ (w.GetOffset = 0) := by omega
    have e2 : ¬ ((t.Text.length : Int) = 0) := by omega
    have e3 : ¬ (w.GetOffset < 0) := by omega
    have e4 : ¬ ((t.Text.length : Int) < w.GetOffset) := by omega
    have e5 : t.Text.length ≠ 0 := by omega
    simp [merge, mergeInit, mergeMeasure, mergeLoop, mergeStep, stepOfAppend, appendAt, flush,
      appendLine, e1, e2, e3, e4, e5, h0, h1]
  · have h1' : w.GetOffset < (t.Text.data.length : Int) := h1
    show ((List.take w.GetOffset.toNat t.Text.data).length : Int) = w.GetOffset
    rw [List.length_take]
    omega
  · have h1' : w.GetOffset < (t.Text.data.length : Int) := h1
    show ((List.drop w.GetOffset.toNat t.Text.data).length : Int)
      = (t.Text.data.length : Int) - w.GetOffset
    rw [List.length_drop]
    omega

/-- C2, at the text "Hello" with a widget at offset 2: the line is
`[run("He"), widget, run("llo")]`; at "héllo" the cut is after two runes. -/
theorem merge_splits_fragment_witness :
    (0 : Int) < 2 ∧ (2 : Int) < (5 : Nat) ∧
    merge [[plainText "Hello"]] [anchorAt 2 "w"] = MergeResult.tree
      [[Element.text (plainText "He"), Element.widget (anchorAt 2 "w"),
        Element.text (plainText "llo")]] ∧
    merge [[plainText "héllo"]] [anchorAt 2 "w"] = MergeResult.tree
      [[Element.text (plainText "hé"), Element.widget (anchorAt 2 "w"),
        Element.text (plainText "llo")]] :=
  ⟨by decide, by decide,
    (merge_splits_fragment (plainText "Hello") (anchorAt 2 "w") (by decide) (by decide)).1,
    (merge_splits_fragment (plainText "héllo") (anchorAt 2 "w") (by decide) (by decide)).1⟩


/-- C5, as stated, fails: with lines ["ab"], ["cd"] and one widget at offset 2
the insert rule is applied at the end of the first line, before the line is
closed, and the widget is the last element of the first output line. -/
theorem merge_line_boundary_counterexample :
    merge [[plainText "ab"], [plainText "cd"]] [anchorAt 2 "w"] =
      MergeResult.tree [[Element.text (plainText "ab"), Element.widget (anchorAt 2 "w")],
        [Element.text (plainText "cd")]] := by
  decide

/-- C5, amended. Line-boundary order: for two lines holding one fragment each,
the first one non-empty, and a single widget whose offset is the rune count of
the first fragment (the position of the implicit line break), the insert rule
is tested before the end-of-line rule: the widget is the last element of the
first output line, and the second line follows unchanged. -/
theorem merge_widget_at_line_end (t1 t2 : CtText) (w : CtAnchoredWidget)
    (h1 : t1.Text ≠ "") (ho : w.GetOffset = t1.Text.length) :
    merge [[t1], [t2]] [w] =
      MergeResult.tree [[Element.text t1, Element.widget w], [Element.text t2]] := by
  have e1 : t1.Text.length ≠ 0 := fun e => h1 ((text_length_eq_zero_iff _).1 e)
  have e2 : 0 < t1.Text.length := Nat.pos_of_ne_zero e1
  have e3 : ¬ ((t1.Text.length : Int) < 0) := by omega
  simp [merge, mergeInit, mergeMeasure, mergeLoop, mergeStep, stepOfAppend, appendAt, flush,
    appendLine, ho, e1, e2, e3, h1]

/-- C5 amended, at the lines ["ab"], ["cd"] and a widget at offset 2. -/
theorem merge_widget_at_line_end_witness :
    (plainText "ab").Text ≠ "" ∧
    (anchorAt 2 "w").GetOffset = ((plainText "ab").Text.length : Int) ∧
    merge [[plainText "ab"], [plainText "cd"]] [anchorAt 2 "w"] =
      MergeResult.tree [[Element.text (plainText "ab"), Element.widget (anchorAt 2 "w")],
        [Element.text (plainText "cd")]] :=
  ⟨by decide, by decide,
    merge_widget_at_line_end (plainText "ab") (plainText "cd") (anchorAt 2 "w")
      (by decide) (by decide)⟩

/-- C3: on the line ["ab"] with one widget at offset 5, and on the line ["a"]
with two widgets at offset 1, the loop ends when the lines are used up; a tree
is returned that holds fewer widgets than the input (none of one, one of two). -/
theorem merge_drops_widget_beyond_text :
    merge [[plainText "ab"]] [anchorAt 5 "w"] =
      MergeResult.tree [[Element.text (plainText "ab")], []] ∧
    widgetsOf ([[Element.text (plainText "ab")], []] : List (List Element)).flatten = [] ∧
    merge [[plainText "a"]] [anchorAt 1 "p", anchorAt 1 "q"] =
      MergeResult.tree [[Element.text (plainText "a"), Element.widget (anchorAt 1 "p")], []] := by
  decide

/-- C4: on the line ["ab"] with two widgets at offset 2 the second widget has
its offset behind the counter (2 < 3) when the lines are used up; a tree is
returned without it and no error is raised.  The same happens to a widget with
a negative offset on an empty first line. -/
theorem merge_drops_widget_behind_counter :
    merge [[plainText "ab"]] [anchorAt 2 "w", anchorAt 2 "v"] =
      MergeResult.tree [[Element.text (plainText "ab"), Element.widget (anchorAt 2 "w")], []] ∧
    merge [[]] [anchorAt (-1) "w"] = MergeResult.tree [[], []] := by
  decide

/-- The widgets of a returned tree are the first widgets of the input, in
input order. -/
theorem merge_widgets_initial (texts : List (List CtText)) (ws : List CtAnchoredWidget)
    (rs : List (List Element)) (h : merge texts ws = MergeResult.tree rs) :
    ∃ rest, ws = widgetsOf rs.flatten ++ rest := by
  obtain ⟨els, rest, h1, _, _, h4⟩ :=
    mergeLoop_tree_elements _ _ rs (mergeInit_wf texts ws) h
  refine ⟨rest, ?_⟩
  simp only [mergeInit, List.flatten_cons, List.flatten_nil, List.nil_append] at h1 h4
  rw [h1]
  exact h4

theorem concatText_length (ts : List CtText) :
    (concatText ts).length = (ts.map (fun t => t.Text.length)).sum := by
  induction ts with
  | nil => rfl
  | cons t ts ih =>
    simp only [concatText, List.length_append, List.map_cons, List.sum_cons, ih]
    rfl

/-- C6. Text preservation: whenever the merger returns a tree, the texts of its
text elements, concatenated in output order, are the texts of the input
fragments concatenated in input order, and the rune counts add up to the same
total. -/
theorem merge_preserves_text (texts : List (List CtText)) (ws : List CtAnchoredWidget)
    (rs : List (List Element)) (h : merge texts ws = MergeResult.tree rs) :
    concatText (textsOf rs.flatten) = concatText texts.flatten ∧
    ((textsOf rs.flatten).map (fun t => t.Text.length)).sum
      = (texts.flatten.map (fun t => t.Text.length)).sum := by
  obtain ⟨els, rest, h1, h2, _, _⟩ :=
    mergeLoop_tree_elements _ _ rs (mergeInit_wf texts ws) h
  simp only [mergeInit, List.flatten_cons, List.flatten_nil, List.nil_append] at h1 h2
  rw [← h1] at h2
  refine ⟨h2, ?_⟩
  rw [← concatText_length, ← concatText_length, h2]

/-- C6, at the lines ["Hello", "", "wor"], ["ld"] with widgets at offsets 2 and 10:
"Hello" is split, and the output texts still spell "Helloworld". -/
theorem merge_preserves_text_witness :
    merge [[plainText "Hello", plainText "", plainText "wor"], [plainText "ld"]]
        [anchorAt 2 "w", anchorAt 10 "v"] =
      MergeResult.tree
        [[Element.text (plainText "He"), Element.widget (anchorAt 2 "w"),
          Element.text (plainText "llo"), Element.text (plainText ""),
          Element.text (plainText "wor")],
         [Element.widget (anchorAt 10 "v"), Element.text (plainText "ld")]] ∧
    concatText (textsOf ([[Element.text (plainText "He"), Element.widget (anchorAt 2 "w"),
          Element.text (plainText "llo"), Element.text (plainText ""),
          Element.text (plainText "wor")],
         [Element.widget (anchorAt 10 "v"), Element.text (plainText "ld")]] :
           List (List Element)).flatten) = "Helloworld".data :=
  ⟨by decide,
    (merge_preserves_text [[plainText "Hello", plainText "", plainText "wor"], [plainText "ld"]]
      [anchorAt 2 "w", anchorAt 10 "v"] _ (by decide)).1.trans (by decide)⟩


/-! ## The parser -/

theorem intercalate_cons_cons {α : Type} (sep a b : List α) (l : List (List α)) :
    List.intercalate sep (a :: b :: l) = a ++ sep ++ List.intercalate sep (b :: l) := by
  simp [List.intercalate, List.intersperse]

theorem intercalate_single {α : Type} (sep a : List α) :
    List.intercalate sep [a] = a := by
  simp [List.intercalate, List.intersperse]

theorem splitNL_ne_nil (s : List Char) : splitNL s ≠ [] := by
  cases s with
  | nil => simp [splitNL]
  | cons c cs =>
    simp only [splitNL]
    split
    · simp
    · split <;> simp

theorem splitNL_append_break (s tl : List Char) (h : '\n' ∉ s) :
    splitNL (s ++ '\n' :: tl) = s :: splitNL tl := by
  induction s with
  | nil => simp [splitNL]
  | cons c cs ih =>
    have hc : c ≠ '\n' := fun e => h (by simp [e])
    have hcs : '\n' ∉ cs := fun e => h (by simp [e])
    simp [splitNL, hc, ih hcs]

theorem splitNL_no_break (s : List Char) (h : '\n' ∉ s) : splitNL s = [s] := by
  induction s with
  | nil => simp [splitNL]
  | cons c cs ih =>
    have hc : c ≠ '\n' := fun e => h (by simp [e])
    have hcs : '\n' ∉ cs := fun e => h (by simp [e])
    simp [splitNL, hc, ih hcs]

/-- Splitting the pieces joined by line breaks gives the pieces back. -/
theorem splitNL_intercalate (segs : List (List Char)) (hne : segs ≠ [])
    (h : ∀ s ∈ segs, '\n' ∉ s) : splitNL (List.intercalate ['\n'] segs) = segs := by
  induction segs with
  | nil => exact absurd rfl hne
  | cons a l ih =>
    cases l with
    | nil =>
      rw [intercalate_single]
      exact splitNL_no_break a (h a (by simp))
    | cons b l =>
      rw [intercalate_cons_cons]
      have ha : '\n' ∉ a := h a (by simp)
      have := ih (by simp) (fun s hs => h s (by simp [hs]))
      simp only [List.append_assoc, List.singleton_append]
      rw [splitNL_append_break a _ ha, this]

/-- The pieces of one run: the first piece goes to the current line, every
further piece opens a line; an empty piece leaves no fragment, any other piece
leaves the copy of the run with the piece as text. -/
theorem splitLoop_last (r : CtText) (ps : List String) :
    ∀ (p : String) (done : List (List CtText)) (cur : List CtText),
      splitLoop r (p :: ps) (done ++ [cur]) done.length =
        some (done ++ (cur ++ (if p ≠ "" then [{ r with Text := p }] else [])) ::
            ps.map (fun q => if q ≠ "" then [{ r with Text := q }] else []),
          done.length + ps.length) := by
  induction ps with
  | nil =>
    intro p done cur
    by_cases hp : p = "" <;> simp [splitLoop, hp, appendAt_last]
  | cons q qs ih =>
    intro p done cur
    have h := ih q (done ++ [cur ++ (if p ≠ "" then [{ r with Text := p }] else [])]) []
    simp only [List.length_append, List.length_singleton, List.nil_append] at h
    by_cases hp : p = ""
    · simp only [hp, ne_eq, not_true_eq_false, if_false, List.append_nil] at h ⊢
      rw [splitLoop]
      simp only [ne_eq, not_true_eq_false, if_false, List.length_cons, Nat.zero_lt_succ, if_true]
      rw [h]
      simp
      omega
    · simp only [hp, ne_eq, not_false_eq_true, if_true] at h ⊢
      rw [splitLoop]
      simp only [ne_eq, hp, not_false_eq_true, if_true, appendAt_last, List.length_cons,
        Nat.zero_lt_succ]
      rw [h]
      simp
      omega


/-- What `NewCtText` keeps of the markup run: the text and every attribute but
the two colours; an empty colour stays empty, any other colour is replaced by
its normalised form, each colour independently of the other. -/
theorem NewCtText_fields (x : XmlRichText) :
    NewCtText x =
      { toXmlRichText :=
          { x with
            Foreground := (if x.Foreground = "" then "" else normalizeColor x.Foreground),
            Background := (if x.Background = "" then "" else normalizeColor x.Background) },
        Typ := CtDocElementText } := by
  obtain ⟨fg, bg, weight, style, underline, strikethrough, scale, family, link, justification,
    indent, text⟩ := x
  unfold NewCtText
  by_cases hb : bg = "" <;> by_cases hf : fg = "" <;> simp [hb, hf]

theorem NewCtText_text (x : XmlRichText) : (NewCtText x).Text = x.Text := by
  rw [NewCtText_fields]

theorem string_data_ne_nil (s : String) (h : s ≠ "") : s.data ≠ [] := by
  intro e
  apply h
  cases s with
  | mk d =>
    simp only at e
    subst e
    rfl

/-- C8, as stated, fails for a run with a colour: the run with foreground
"#eded33333b3b" and text "a\nb" gives two lines, but each fragment carries the
foreground "#ed333b", not that of the run. -/
theorem parseRuns_colour_counterexample :
    parseRuns [plainRun "a\nb" "#eded33333b3b"] =
      some [[{ plainText "a" with Foreground := "#ed333b" }],
            [{ plainText "b" with Foreground := "#ed333b" }]] ∧
    ({ plainText "a" with Foreground := "#ed333b" } : CtText).toXmlRichText
      ≠ { plainRun "a\nb" "#eded33333b3b" with Text := "a" } := by
  decide

/-- C8, amended. Newline splitting of a run: for every markup run `x` whose
text is `s0 \n s1 \n ... \n sm` with every `si` non-empty and free of line
breaks, parsing the document `[x]` yields exactly `m + 1` lines, and line `i`
holds exactly one fragment, the run `NewCtText x` with text `si`: its
attributes are those of `x`, except that a non-empty `Foreground` or
`Background` is the colour normalised by `NewCtText`. -/
theorem parseRuns_splits_run (x : XmlRichText) (segs : List String)
    (hne : segs ≠ [])
    (hseg : ∀ s ∈ segs, s ≠ "" ∧ '\n' ∉ s.data)
    (htext : x.Text.data = List.intercalate ['\n'] (segs.map String.data)) :
    parseRuns [x] = some (segs.map (fun s => [{ NewCtText x with Text := s }])) ∧
    (segs.map (fun s => [({ NewCtText x with Text := s } : CtText)])).length = segs.length ∧
    ∀ s : String, ({ NewCtText x with Text := s } : CtText) =
      { toXmlRichText :=
          { x with
            Text := s,
            Foreground := (if x.Foreground = "" then "" else normalizeColor x.Foreground),
            Background := (if x.Background = "" then "" else normalizeColor x.Background) },
        Typ := CtDocElementText } := by
  have hf := NewCtText_fields x
  have ht := NewCtText_text x
  refine ⟨?_, by simp, ?_⟩
  · simp only [parseRuns, parseLoop]
    generalize NewCtText x = r at ht
    have hsplit : stringsSplit r.Text = segs := by
      unfold stringsSplit
      rw [ht, htext, splitNL_intercalate _ (by simpa using hne)]
      · simp [List.map_map, Function.comp_def]
      · intro s hs
        simp only [List.mem_map] at hs
        obtain ⟨q, hq, rfl⟩ := hs
        exact (hseg q hq).2
    cases segs with
    | nil => exact absurd rfl hne
    | cons p ps =>
      have hp : p ≠ "" := (hseg p (by simp)).1
      have hrne : r.Text ≠ "" := by
        intro e
        have hd : r.Text.data = [] := by rw [e]
        rw [ht, htext] at hd
        have hpd := string_data_ne_nil p hp
        cases ps with
        | nil =>
          rw [List.map_cons, List.map_nil, intercalate_single] at hd
          exact hpd hd
        | cons q qs =>
          rw [List.map_cons, List.map_cons, intercalate_cons_cons] at hd
          simp [hpd] at hd
      have hl := splitLoop_last r ps p [] []
      simp only [List.nil_append, List.length_nil] at hl
      have hmap : ps.map (fun q => if q ≠ "" then [({ r with Text := q } : CtText)] else [])
          = ps.map (fun q => [{ r with Text := q }]) := by
        apply List.map_congr_left
        intro q hq
        simp [(hseg q (by simp [hq])).1]
      rw [hmap] at hl
      simp only [ne_eq, hp, not_false_eq_true, if_true] at hl
      simp only [hrne, if_false, hsplit, hl]
      simp
  · intro s
    rw [hf]

/-- C8 amended, at the run with text "a\nb\nc" and no colour (three lines
with the texts "a", "b", "c"), and at the run with text "a\nb" and the
foreground "red": two lines, each fragment with the foreground `NewCtText`
builds from "red". -/
theorem parseRuns_splits_run_witness :
    (["a", "b", "c"] : List String) ≠ [] ∧
    (∀ s ∈ (["a", "b", "c"] : List String), s ≠ "" ∧ '\n' ∉ s.data) ∧
    (plainRun "a\nb\nc" "").Text.data
      = List.intercalate ['\n'] ((["a", "b", "c"] : List String).map String.data) ∧
    parseRuns [plainRun "a\nb\nc" ""] =
      some [[plainText "a"], [plainText "b"], [plainText "c"]] ∧
    parseRuns [plainRun "a\nb" "red"] =
      some [[{ plainText "a" with Foreground := normalizeColor "red" }],
            [{ plainText "b" with Foreground := normalizeColor "red" }]] :=
  ⟨by decide, by decide, by decide,
    (parseRuns_splits_run (plainRun "a\nb\nc" "") ["a", "b", "c"]
      (by decide) (by decide) (by decide)).1.trans (by decide),
    (parseRuns_splits_run (plainRun "a\nb" "red") ["a", "b"]
      (by decide) (by decide) (by decide)).1.trans (by decide)⟩


theorem emptyRuns_fragments (r : CtText) (ps : List String) :
    emptyRuns (ps.map (fun q => if q ≠ "" then [({ r with Text := q } : CtText)] else [])).flatten
      = [] := by
  induction ps with
  | nil => rfl
  | cons q qs ih =>
    simp only [List.map_cons, List.flatten_cons, emptyRuns_append, ih, List.append_nil]
    by_cases hq : q = "" <;> simp [hq, emptyRuns]

theorem exists_snoc {α : Type} (L : List α) (h : L ≠ []) : ∃ d c, L = d ++ [c] :=
  ⟨L.dropLast, L.getLast h, (List.dropLast_append_getLast h).symm⟩

/-- The empty runs of the parsed lines are the runs `NewCtText` builds from the
empty runs of the markup, in order, after those already in the lines. -/
theorem parseLoop_emptyRuns (xs : List XmlRichText) :
    ∀ (done : List (List CtText)) (cur : List CtText) (texts : List (List CtText)),
      parseLoop xs (done ++ [cur]) done.length = some texts →
      emptyRuns texts.flatten = emptyRuns (done ++ [cur]).flatten ++
        (xs.filter (fun x => decide (x.Text = ""))).map NewCtText := by
  induction xs with
  | nil =>
    intro done cur texts h
    simp only [parseLoop, Option.some.injEq] at h
    subst h
    simp
  | cons e es ih =>
    intro done cur texts h
    rw [parseLoop] at h
    have ht := NewCtText_text e
    obtain ⟨r, hr⟩ : ∃ r, NewCtText e = r := ⟨_, rfl⟩
    rw [hr] at h ht
    by_cases hempty : r.Text = ""
    · simp only [hempty, if_true, appendAt_last] at h
      have h1 := ih done (cur ++ [r]) texts h
      have he : e.Text = "" := by rw [← ht]; exact hempty
      rw [h1]
      simp [emptyRuns, hempty, he, hr]
    · simp only [hempty, if_false] at h
      obtain ⟨p, ps, hps⟩ : ∃ p ps, stringsSplit r.Text = p :: ps := by
        unfold stringsSplit
        have := splitNL_ne_nil r.Text.data
        cases hsp : splitNL r.Text.data with
        | nil => exact absurd hsp this
        | cons a l => exact ⟨_, _, rfl⟩
      rw [hps, splitLoop_last] at h
      simp only at h
      obtain ⟨d, c, hdc⟩ := exists_snoc
        ((cur ++ (if p ≠ "" then [({ r with Text := p } : CtText)] else [])) ::
          ps.map (fun q => if q ≠ "" then [({ r with Text := q } : CtText)] else []))
        (by simp)
      have hlen : d.length = ps.length := by
        have := congrArg List.length hdc
        simp at this
        omega
      rw [hdc, ← List.append_assoc] at h
      have hcli : done.length + ps.length = (done ++ d).length := by simp [hlen]
      rw [hcli] at h
      have h1 := ih (done ++ d) c texts h
      have he : ¬ e.Text = "" := by rw [← ht]; exact hempty
      rw [h1, List.append_assoc, ← hdc]
      have hfr := emptyRuns_fragments r ps
      have hp : emptyRuns (if p ≠ "" then [({ r with Text := p } : CtText)] else []) = [] := by
        by_cases hp : p = "" <;> simp [hp, emptyRuns]
      simp only [List.flatten_append, List.flatten_cons, List.flatten_nil, emptyRuns_append,
        hfr, hp, List.append_nil]
      simp [he]

/-- C9, as stated, fails for an empty run with a colour: the empty run with
foreground "#ffff00000000" is kept as an element, but with the foreground
"#ff0000". -/
theorem reconstruct_empty_run_counterexample :
    reconstruct [plainRun "" "#ffff00000000"] [] =
      MergeResult.tree [[Element.text { plainText "" with Foreground := "#ff0000" }]] ∧
    ({ plainText "" with Foreground := "#ff0000" } : CtText).toXmlRichText
      ≠ plainRun "" "#ffff00000000" := by
  decide

/-- C9, amended. Functional empty runs are kept: whenever reconstruction
returns a tree, the text elements of the output with an empty text are exactly
the runs `NewCtText` builds from the empty-text runs of the markup (a non-empty
colour normalised, every other attribute as in the markup), in the original
order; neither line splitting nor mid-fragment splitting creates or drops
one. -/
theorem reconstruct_keeps_empty_runs (xs : List XmlRichText) (ws : List CtAnchoredWidget)
    (rs : List (List Element)) (h : reconstruct xs ws = MergeResult.tree rs) :
    emptyRuns (textsOf rs.flatten)
      = (xs.filter (fun x => decide (x.Text = ""))).map NewCtText ∧
    ∀ x : XmlRichText, NewCtText x =
      { toXmlRichText :=
          { x with
            Foreground := (if x.Foreground = "" then "" else normalizeColor x.Foreground),
            Background := (if x.Background = "" then "" else normalizeColor x.Background) },
        Typ := CtDocElementText } := by
  refine ⟨?_, NewCtText_fields⟩
  unfold reconstruct at h
  cases hp : parseRuns xs with
  | none => rw [hp] at h; cases h
  | some texts =>
    rw [hp] at h
    simp only at h
    have h1 := parseLoop_emptyRuns xs [] [] texts hp
    obtain ⟨els, rest, g1, _, g3, _⟩ :=
      mergeLoop_tree_elements _ _ rs (mergeInit_wf texts ws) h
    simp only [mergeInit, List.flatten_cons, List.flatten_nil, List.nil_append] at g1 g3
    rw [g1, g3, h1]
    simp [emptyRuns]

/-- C9 amended, at the markup runs "ab", an empty run with foreground
"#ffff00000000", an empty run with foreground "red", "c\n" and a widget at
offset 1. -/
theorem reconstruct_keeps_empty_runs_witness :
    reconstruct
        [plainRun "ab" "", plainRun "" "#ffff00000000", plainRun "" "red", plainRun "c\n" ""]
        [anchorAt 1 "w"] =
      MergeResult.tree
        [[Element.text (plainText "a"), Element.widget (anchorAt 1 "w"),
          Element.text (plainText "b"),
          Element.text { plainText "" with Foreground := "#ff0000" },
          Element.text { plainText "" with Foreground := normalizeColor "red" },
          Element.text (plainText "c")], []] ∧
    emptyRuns (textsOf ([[Element.text (plainText "a"), Element.widget (anchorAt 1 "w"),
          Element.text (plainText "b"),
          Element.text { plainText "" with Foreground := "#ff0000" },
          Element.text { plainText "" with Foreground := normalizeColor "red" },
          Element.text (plainText "c")], []] : List (List Element)).flatten)
      = ([plainRun "ab" "", plainRun "" "#ffff00000000", plainRun "" "red",
          plainRun "c\n" ""].filter (fun x => decide (x.Text = ""))).map NewCtText :=
  ⟨by decide,
    (reconstruct_keeps_empty_runs
      [plainRun "ab" "", plainRun "" "#ffff00000000", plainRun "" "red", plainRun "c\n" ""]
      [anchorAt 1 "w"] _ (by decide)).1⟩


/-! ## The flattened stream -/

@[simp] theorem lineSlots_append (a b : List Element) :
    lineSlots (a ++ b) = lineSlots a ++ lineSlots b := by
  induction a with
  | nil => rfl
  | cons x xs ih => simp [lineSlots, ih]

theorem lineSlots_single (el : Element) : lineSlots [el] = el.slots := by
  simp [lineSlots]

theorem streamOf_cons_cons (l l2 : List Element) (ls : List (List Element)) :
    streamOf (l :: l2 :: ls) = lineSlots l ++ Slot.lineBreak :: streamOf (l2 :: ls) := rfl

theorem streamOf_grow_last (done : List (List Element)) (cur more : List Element) :
    streamOf (done ++ [cur ++ more]) = streamOf (done ++ [cur]) ++ lineSlots more := by
  induction done with
  | nil => simp [streamOf]
  | cons d ds ih =>
    cases ds with
    | nil => simp [streamOf]
    | cons d2 ds2 =>
      have ih1 : streamOf (d2 :: (ds2 ++ [cur ++ more]))
          = streamOf (d2 :: (ds2 ++ [cur])) ++ lineSlots more := ih
      show streamOf (d :: d2 :: (ds2 ++ [cur ++ more]))
          = streamOf (d :: d2 :: (ds2 ++ [cur])) ++ lineSlots more
      rw [streamOf_cons_cons, streamOf_cons_cons, ih1]
      simp

theorem streamOf_new_line (done : List (List Element)) (cur : List Element) :
    streamOf (done ++ [cur] ++ [[]]) = streamOf (done ++ [cur]) ++ [Slot.lineBreak] := by
  induction done with
  | nil => simp [streamOf, lineSlots]
  | cons d ds ih =>
    cases ds with
    | nil => simp [streamOf, lineSlots]
    | cons d2 ds2 =>
      have ih1 : streamOf (d2 :: (ds2 ++ [cur] ++ [[]]))
          = streamOf (d2 :: (ds2 ++ [cur])) ++ [Slot.lineBreak] := ih
      show streamOf (d :: d2 :: (ds2 ++ [cur] ++ [[]]))
          = streamOf (d :: d2 :: (ds2 ++ [cur])) ++ [Slot.lineBreak]
      rw [streamOf_cons_cons, streamOf_cons_cons, ih1]
      simp

theorem streamOf_append_cons (rs : List (List Element)) (l : List Element)
    (ls : List (List Element)) (h : rs ≠ []) :
    streamOf (rs ++ l :: ls) = streamOf rs ++ Slot.lineBreak :: streamOf (l :: ls) := by
  induction rs with
  | nil => exact absurd rfl h
  | cons d ds ih =>
    cases ds with
    | nil => simp [streamOf]
    | cons d2 ds2 =>
      have ih1 : streamOf (d2 :: (ds2 ++ l :: ls))
          = streamOf (d2 :: ds2) ++ Slot.lineBreak :: streamOf (l :: ls) := ih (by simp)
      show streamOf (d :: d2 :: (ds2 ++ l :: ls))
          = streamOf (d :: d2 :: ds2) ++ Slot.lineBreak :: streamOf (l :: ls)
      rw [streamOf_cons_cons, streamOf_cons_cons, ih1]
      simp

theorem pending_cons_text (t : CtText) (l : List CtText) (rest : List (List CtText)) :
    pending ((t :: l) :: rest) = t.Text.data.map Slot.rune ++ pending (l :: rest) := by
  cases rest with
  | nil => simp [pending, textLines, streamOf, lineSlots, Element.slots]
  | cons l2 rest => simp [pending, textLines, streamOf, lineSlots, Element.slots]

theorem pending_nil_cons (l2 : List CtText) (rest : List (List CtText)) :
    pending ([] :: l2 :: rest) = Slot.lineBreak :: pending (l2 :: rest) := by
  simp [pending, textLines, streamOf, lineSlots]

theorem pending_single_nil : pending [[]] = [] := by
  simp [pending, textLines, streamOf, lineSlots]

@[simp] theorem removeWidgets_append (a b : List Slot) :
    removeWidgets (a ++ b) = removeWidgets a ++ removeWidgets b := by
  induction a with
  | nil => rfl
  | cons x xs ih => cases x <;> simp [removeWidgets, ih]

@[simp] theorem streamWidgets_append (a b : List Slot) :
    streamWidgets (a ++ b) = streamWidgets a ++ streamWidgets b := by
  induction a with
  | nil => rfl
  | cons x xs ih => cases x <;> simp [streamWidgets, ih]

@[simp] theorem removeWidgets_runes (d : List Char) :
    removeWidgets (d.map Slot.rune) = d.map Slot.rune := by
  induction d with
  | nil => rfl
  | cons x xs ih => simp [removeWidgets, ih]

@[simp] theorem streamWidgets_runes (d : List Char) : streamWidgets (d.map Slot.rune) = [] := by
  induction d with
  | nil => rfl
  | cons x xs ih => simp [streamWidgets, ih]

theorem removeWidgets_lineSlots_text (l : List CtText) :
    removeWidgets (lineSlots (l.map Element.text)) = lineSlots (l.map Element.text) := by
  induction l with
  | nil => rfl
  | cons t ts ih => simp [lineSlots, Element.slots, ih]

theorem streamWidgets_lineSlots_text (l : List CtText) :
    streamWidgets (lineSlots (l.map Element.text)) = [] := by
  induction l with
  | nil => rfl
  | cons t ts ih => simp [lineSlots, Element.slots, ih]

theorem removeWidgets_pending (texts : List (List CtText)) :
    removeWidgets (pending texts) = pending texts := by
  induction texts with
  | nil => rfl
  | cons l ls ih =>
    cases ls with
    | nil => simpa [pending, textLines, streamOf] using removeWidgets_lineSlots_text l
    | cons l2 ls2 =>
      simp only [pending, textLines, List.map_cons, streamOf] at ih ⊢
      simp only [removeWidgets_append, removeWidgets, ih]
      rw [removeWidgets_lineSlots_text]

theorem streamWidgets_pending (texts : List (List CtText)) :
    streamWidgets (pending texts) = [] := by
  induction texts with
  | nil => rfl
  | cons l ls ih =>
    cases ls with
    | nil => simpa [pending, textLines, streamOf] using streamWidgets_lineSlots_text l
    | cons l2 ls2 =>
      simp only [pending, textLines, List.map_cons, streamOf] at ih ⊢
      simp only [streamWidgets_append, streamWidgets, ih]
      rw [streamWidgets_lineSlots_text]
      rfl

/-- The stream of the flushed result: what was emitted, then the pending
stream. -/
theorem streamOf_flush (done : List (List Element)) (cur : List Element) (line : List CtText)
    (rest : List (List CtText)) :
    streamOf (done ++ [cur ++ line.map Element.text] ++ textLines rest)
      = streamOf (done ++ [cur]) ++ pending (line :: rest) := by
  cases rest with
  | nil =>
    simp only [textLines, List.map_nil, List.append_nil]
    rw [streamOf_grow_last]
    simp [pending, textLines, streamOf]
  | cons l2 rest =>
    simp only [textLines, List.map_cons]
    rw [streamOf_append_cons _ _ _ (by simp), streamOf_grow_last]
    simp [pending, textLines, streamOf]


/-! ## Placement of the widgets -/

theorem getElem?_append_add {α : Type} (a b : List α) (k : Nat) :
    (a ++ b)[a.length + k]? = b[k]? := by
  rw [List.getElem?_append_right (by omega)]
  simp

theorem runes_length (t : CtText) : ((t.Text.data.map Slot.rune).length : Int) = t.Text.length := by
  rw [List.length_map]
  rfl

/-- When every pending offset can be reached, the loop returns a tree whose
stream extends the emitted stream by the pending text with the pending widgets
put in, each at the distance of its offset from the counter. -/
theorem mergeLoop_places (fuel : Nat) :
    ∀ st : MergeState, st.WF → st.texts ≠ [] → mergeMeasure st < fuel →
      Reachable st.chars (st.chars + (pending st.texts).length) st.anchoredWidgets →
      ∃ rs tail, mergeLoop fuel st = MergeResult.tree rs ∧
        streamOf rs = streamOf st.resultSet ++ tail ∧
        removeWidgets tail = pending st.texts ∧
        streamWidgets tail = st.anchoredWidgets ∧
        ∀ w ∈ st.anchoredWidgets,
          ∃ k : Nat, w.GetOffset = st.chars + k ∧ tail[k]? = some (Slot.widget w) := by
  induction fuel with
  | zero => intro st _ _ h; omega
  | succ fuel ih =>
    intro st hwf hne hfuel hreach
    rw [mergeLoop]
    cases hstep : mergeStep st with
    | done r =>
      simp only
      have hs := mergeStep_done st r hwf hstep
      cases hs with
      | exhausted ws rs cli c => exact absurd rfl hne
      | flushed line rest done cur c =>
        refine ⟨_, pending (line :: rest), rfl, streamOf_flush _ _ _ _, removeWidgets_pending _,
          streamWidgets_pending _, ?_⟩
        intro w hw
        cases hw
      | inconsistent t l rest w ws rs cli c hne1 hlt =>
        simp only [Reachable] at hreach
        omega
    | next st1 =>
      simp only
      have hm := mergeStep_next st st1 hwf hstep
      have hlt := hm.measure_lt
      have hih := ih st1 hm.wf
      replace hih := fun h => hih h (by omega)
      clear hlt hfuel hstep hwf hne
      cases hm with
      | insert line rest w ws done cur c hoff hhead =>
        simp only [Reachable] at hreach
        obtain ⟨h1, h2, h3⟩ := hreach
        have hr1 : Reachable (c + 1) (c + 1 + (pending (line :: rest)).length) ws := by
          rw [hoff] at h3
          have e : c + 1 + ((pending (line :: rest)).length : Int)
              = c + (pending (line :: rest)).length + 1 := by ring
          rw [e]
          exact h3
        obtain ⟨rs, tail1, e1, e2, e3, e4, e5⟩ :=
          hih (by simp) hr1
        refine ⟨rs, Slot.widget w :: tail1, e1, ?_, ?_, ?_, ?_⟩
        · rw [e2]
          simp only
          rw [streamOf_grow_last]
          simp [lineSlots, Element.slots]
        · simp only [removeWidgets]
          exact e3
        · simp only [streamWidgets]
          rw [e4]
        · intro w1 hw1
          rcases List.mem_cons.1 hw1 with rfl | hw1
          · exact ⟨0, by simp [hoff], by simp⟩
          · obtain ⟨k, hk1, hk2⟩ := e5 w1 hw1
            refine ⟨k + 1, ?_, by simpa using hk2⟩
            simp only at hk1
            push_cast
            omega
      | endOfLine rest w ws done cur c hoff =>
        simp only [Reachable] at hreach
        obtain ⟨h1, h2, h3⟩ := hreach
        cases rest with
        | nil =>
          rw [pending_single_nil] at h2
          simp only [List.length_nil, Nat.cast_zero, add_zero] at h2
          exact absurd (le_antisymm h2 h1) hoff
        | cons l2 rest =>
          rw [pending_nil_cons] at h2 h3
          simp only [List.length_cons, Nat.cast_add, Nat.cast_one] at h2 h3
          have hr1 : Reachable (c + 1) (c + 1 + (pending (l2 :: rest)).length) (w :: ws) := by
            simp only [Reachable]
            refine ⟨?_, by omega, ?_⟩
            · have : w.GetOffset ≠ c := hoff
              omega
            · have e : c + 1 + ((pending (l2 :: rest)).length : Int) + 1
                  = c + ((pending (l2 :: rest)).length + 1) + 1 := by ring
              rw [e]
              exact h3
          obtain ⟨rs, tail1, e1, e2, e3, e4, e5⟩ :=
            hih (by simp) hr1
          refine ⟨rs, Slot.lineBreak :: tail1, e1, ?_, ?_, ?_, ?_⟩
          · rw [e2]
            simp only
            rw [streamOf_new_line]
            simp
          · simp only [removeWidgets]
            rw [e3, pending_nil_cons]
          · simp only [streamWidgets]
            exact e4
          · intro w1 hw1
            obtain ⟨k, hk1, hk2⟩ := e5 w1 hw1
            refine ⟨k + 1, ?_, by simpa using hk2⟩
            simp only at hk1
            push_cast
            omega
      | functional t l rest w ws done cur c hempty =>
        have hp : pending ((t :: l) :: rest) = pending (l :: rest) := by
          rw [pending_cons_text, hempty]
          rfl
        rw [show (MergeState.mk ((t :: l) :: rest) (w :: ws) (done ++ [cur]) done.length c).texts
          = (t :: l) :: rest from rfl, hp] at hreach
        obtain ⟨rs, tail1, e1, e2, e3, e4, e5⟩ :=
          hih (by simp) hreach
        refine ⟨rs, tail1, e1, ?_, ?_, e4, e5⟩
        · rw [e2]
          simp only
          rw [streamOf_grow_last]
          simp [lineSlots, Element.slots, hempty]
        · rw [e3, hp]
      | whole t l rest w ws done cur c hne1 hoff =>
        simp only [Reachable] at hreach
        obtain ⟨h1, h2, h3⟩ := hreach
        rw [pending_cons_text] at h2 h3
        simp only [List.length_append, Nat.cast_add, runes_length] at h2 h3
        have hr1 : Reachable (c + t.Text.length) (c + t.Text.length + (pending (l :: rest)).length)
            (w :: ws) := by
          simp only [Reachable]
          refine ⟨hoff, by omega, ?_⟩
          have e : c + (t.Text.length : Int) + ((pending (l :: rest)).length : Int) + 1
              = c + (t.Text.length + (pending (l :: rest)).length) + 1 := by ring
          rw [e]
          exact h3
        obtain ⟨rs, tail1, e1, e2, e3, e4, e5⟩ :=
          hih (by simp) hr1
        refine ⟨rs, t.Text.data.map Slot.rune ++ tail1, e1, ?_, ?_, ?_, ?_⟩
        · rw [e2]
          simp only
          rw [streamOf_grow_last]
          simp [lineSlots, Element.slots]
        · rw [removeWidgets_append, removeWidgets_runes, e3, pending_cons_text]
        · rw [streamWidgets_append, streamWidgets_runes, e4]
          rfl
        · intro w1 hw1
          obtain ⟨k, hk1, hk2⟩ := e5 w1 hw1
          refine ⟨(t.Text.data.map Slot.rune).length + k, ?_, ?_⟩
          · simp only at hk1
            have := runes_length t
            push_cast
            omega
          · rw [getElem?_append_add]
            exact hk2
      | split t l rest w ws done cur c hlo hhi =>
        simp only [Reachable] at hreach
        obtain ⟨h1, h2, h3⟩ := hreach
        rw [pending_cons_text] at h2 h3
        simp only [List.length_append, Nat.cast_add, runes_length] at h2 h3
        have hcut : ((w.GetOffset - c).toNat : Int) = w.GetOffset - c :=
          Int.toNat_of_nonneg (by omega)
        have hlen : (t.Text.data.length : Int) = t.Text.length := rfl
        have hleft : (t.Text.data.take (w.GetOffset - c).toNat).length
            = (w.GetOffset - c).toNat := by
          rw [List.length_take]
          omega
        have hright : ((t.Text.data.drop (w.GetOffset - c).toNat).length : Int)
            = t.Text.length - (w.GetOffset - c) := by
          rw [List.length_drop]
          omega
        have hp : pending
            (({ t with Text := ⟨t.Text.data.drop (w.GetOffset - c).toNat⟩ } :: l) :: rest)
            = (t.Text.data.drop (w.GetOffset - c).toNat).map Slot.rune ++ pending (l :: rest) :=
          pending_cons_text _ _ _
        have hr1 : Reachable (w.GetOffset + 1) (w.GetOffset + 1 + (pending
            (({ t with Text := ⟨t.Text.data.drop (w.GetOffset - c).toNat⟩ } :: l) :: rest)).length)
            ws := by
          rw [hp]
          simp only [List.length_append, Nat.cast_add, List.length_map, hright]
          have e : w.GetOffset + 1 + ((t.Text.length : Int) - (w.GetOffset - c)
                + ((pending (l :: rest)).length : Int))
              = c + (t.Text.length + (pending (l :: rest)).length) + 1 := by ring
          rw [e]
          exact h3
        obtain ⟨rs, tail1, e1, e2, e3, e4, e5⟩ :=
          hih (by simp) hr1
        refine ⟨rs, (t.Text.data.take (w.GetOffset - c).toNat).map Slot.rune
          ++ Slot.widget w :: tail1, e1, ?_, ?_, ?_, ?_⟩
        · rw [e2]
          simp only
          rw [streamOf_grow_last, streamOf_grow_last]
          simp [lineSlots, Element.slots]
        · rw [removeWidgets_append, removeWidgets_runes]
          simp only [removeWidgets]
          rw [e3, hp, pending_cons_text, ← List.append_assoc, ← List.map_append,
            List.take_append_drop]
        · rw [streamWidgets_append, streamWidgets_runes]
          simp only [streamWidgets, List.nil_append]
          rw [e4]
        · intro w1 hw1
          rcases List.mem_cons.1 hw1 with rfl | hw1
          · refine ⟨(w1.GetOffset - c).toNat, by simp only; omega, ?_⟩
            have := getElem?_append_add ((t.Text.data.take (w1.GetOffset - c).toNat).map Slot.rune)
              (Slot.widget w1 :: tail1) 0
            rw [List.length_map, hleft] at this
            simpa using this
          · obtain ⟨k, hk1, hk2⟩ := e5 w1 hw1
            refine ⟨(w.GetOffset - c).toNat + (k + 1), ?_, ?_⟩
            · simp only at hk1
              push_cast
              omega
            · have := getElem?_append_add ((t.Text.data.take (w.GetOffset - c).toNat).map Slot.rune)
                (Slot.widget w :: tail1) (k + 1)
              rw [List.length_map, hleft] at this
              rw [this]
              simpa using hk2


theorem streamWidgets_lineSlots (l : List Element) :
    streamWidgets (lineSlots l) = widgetsOf l := by
  induction l with
  | nil => rfl
  | cons el els ih =>
    cases el with
    | text t => simp [lineSlots, Element.slots, widgetsOf, ih]
    | widget w => simp [lineSlots, Element.slots, widgetsOf, streamWidgets, ih]

theorem streamWidgets_streamOf (rs : List (List Element)) :
    streamWidgets (streamOf rs) = widgetsOf rs.flatten := by
  induction rs with
  | nil => rfl
  | cons l ls ih =>
    cases ls with
    | nil => simp [streamOf, streamWidgets_lineSlots]
    | cons l2 ls2 =>
      rw [streamOf_cons_cons, streamWidgets_append, streamWidgets_lineSlots]
      simp only [streamWidgets, ih, List.flatten_cons, widgetsOf_append]

theorem lineSlots_text_length (l : List CtText) :
    (lineSlots (l.map Element.text)).length = (l.map (fun t => t.Text.length)).sum := by
  induction l with
  | nil => rfl
  | cons t ts ih =>
    simp only [List.map_cons, lineSlots, List.length_append, ih, List.sum_cons, Element.slots,
      List.length_map]
    rfl

/-- The pending stream has one slot per rune and one per line break between
two lines. -/
theorem pending_length (rest : List (List CtText)) :
    ∀ line : List CtText, (pending (line :: rest)).length
      = ((line :: rest).flatten.map (fun t => t.Text.length)).sum + rest.length := by
  induction rest with
  | nil =>
    intro line
    simp [pending, textLines, streamOf, lineSlots_text_length]
  | cons l2 rest ih =>
    intro line
    have h := ih l2
    simp only [pending, textLines, List.map_cons] at h ⊢
    rw [streamOf_cons_cons, List.length_append, List.length_cons, h, lineSlots_text_length]
    simp only [List.flatten_cons, List.map_append, List.sum_append, List.length_cons]
    omega

/-- Offsets that increase strictly from `c` on, the i-th being at most `e + i`,
can be reached. -/
theorem reachable_of_increasing (ws : List CtAnchoredWidget) :
    ∀ (c e : Int), List.Pairwise (fun a b => a.GetOffset < b.GetOffset) ws →
      (∀ w ∈ ws, c ≤ w.GetOffset) →
      (∀ i (h : i < ws.length), (ws.get ⟨i, h⟩).GetOffset ≤ e + i) →
      Reachable c e ws := by
  induction ws with
  | nil => intro c e _ _ _; trivial
  | cons w ws ih =>
    intro c e hp hc hb
    rw [List.pairwise_cons] at hp
    refine ⟨hc w (by simp), ?_, ih _ _ hp.2 ?_ ?_⟩
    · have := hb 0 (by simp)
      simpa using this
    · intro w1 hw1
      have := hp.1 w1 hw1
      omega
    · intro i h
      have := hb (i + 1) (by simp; omega)
      simp only [List.get_eq_getElem, List.getElem_cons_succ] at this ⊢
      push_cast at this
      omega

/-- C1. Merger placement: when the widget offsets are strictly increasing and
non-negative and the i-th widget has offset at most (total rune count of the
fragments + number of line breaks between the lines + i), the merge returns a
tree; its elements hold exactly the input widgets, each once and in order; in
the flattened stream of the tree (one slot per rune, per widget and per line
break between two output lines) every widget sits at the index equal to its
offset; and the stream without its widget slots is the stream of the input
lines. -/
theorem merge_places_widgets (line : List CtText) (rest : List (List CtText))
    (ws : List CtAnchoredWidget)
    (hinc : List.Pairwise (fun a b => a.GetOffset < b.GetOffset) ws)
    (hnonneg : ∀ w ∈ ws, 0 ≤ w.GetOffset)
    (hbound : ∀ i (h : i < ws.length), (ws.get ⟨i, h⟩).GetOffset ≤
      (runeCount (line :: rest) : Int) + rest.length + i) :
    ∃ rs, merge (line :: rest) ws = MergeResult.tree rs ∧
      widgetsOf rs.flatten = ws ∧
      (∀ i (h : i < ws.length),
        (streamOf rs)[(ws.get ⟨i, h⟩).GetOffset.toNat]? = some (Slot.widget (ws.get ⟨i, h⟩))) ∧
      removeWidgets (streamOf rs) = streamOf (textLines (line :: rest)) := by
  have hreach : Reachable 0 (0 + ((pending (line :: rest)).length : Int)) ws := by
    apply reachable_of_increasing ws _ _ hinc hnonneg
    intro i h
    rw [pending_length]
    have := hbound i h
    unfold runeCount at this
    push_cast at this ⊢
    omega
  obtain ⟨rs, tail, e1, e2, e3, e4, e5⟩ :=
    mergeLoop_places (mergeMeasure (mergeInit (line :: rest) ws) + 1)
      (mergeInit (line :: rest) ws) (mergeInit_wf _ _) (by simp [mergeInit])
      (Nat.lt_succ_self _) hreach
  have hs : streamOf rs = tail := by
    rw [e2]
    simp [mergeInit, streamOf, lineSlots]
  refine ⟨rs, e1, ?_, ?_, ?_⟩
  · rw [← streamWidgets_streamOf, hs, e4]
    rfl
  · intro i h
    obtain ⟨k, hk1, hk2⟩ := e5 (ws.get ⟨i, h⟩) (List.get_mem ws i h)
    simp only [mergeInit, zero_add] at hk1
    rw [hs, hk1, Int.toNat_ofNat]
    exact hk2
  · rw [hs, e3]
    rfl

/-- C1, at the lines ["ab", "", "cd"], [], ["c"] and widgets at the offsets
2, 3, 6 and 9. -/
theorem merge_places_widgets_witness :
    List.Pairwise (fun a b => a.GetOffset < b.GetOffset)
      [anchorAt 2 "p", anchorAt 3 "q", anchorAt 6 "r", anchorAt 9 "s"] ∧
    (∀ w ∈ [anchorAt 2 "p", anchorAt 3 "q", anchorAt 6 "r", anchorAt 9 "s"], 0 ≤ w.GetOffset) ∧
    merge [[plainText "ab", plainText "", plainText "cd"], [], [plainText "c"]]
        [anchorAt 2 "p", anchorAt 3 "q", anchorAt 6 "r", anchorAt 9 "s"] =
      MergeResult.tree
        [[Element.text (plainText "ab"), Element.text (plainText ""),
          Element.widget (anchorAt 2 "p"), Element.widget (anchorAt 3 "q"),
          Element.text (plainText "cd"), Element.widget (anchorAt 6 "r")],
         [],
         [Element.widget (anchorAt 9 "s"), Element.text (plainText "c")]] ∧
    ∃ rs, merge [[plainText "ab", plainText "", plainText "cd"], [], [plainText "c"]]
        [anchorAt 2 "p", anchorAt 3 "q", anchorAt 6 "r", anchorAt 9 "s"] = MergeResult.tree rs ∧
      widgetsOf rs.flatten = [anchorAt 2 "p", anchorAt 3 "q", anchorAt 6 "r", anchorAt 9 "s"] ∧
      (∀ i (h : i < [anchorAt 2 "p", anchorAt 3 "q", anchorAt 6 "r", anchorAt 9 "s"].length),
        (streamOf rs)[([anchorAt 2 "p", anchorAt 3 "q", anchorAt 6 "r",
            anchorAt 9 "s"].get ⟨i, h⟩).GetOffset.toNat]?
          = some (Slot.widget ([anchorAt 2 "p", anchorAt 3 "q", anchorAt 6 "r",
            anchorAt 9 "s"].get ⟨i, h⟩))) ∧
      removeWidgets (streamOf rs) = streamOf
        (textLines [[plainText "ab", plainText "", plainText "cd"], [], [plainText "c"]]) :=
  ⟨by decide, by decide, by decide,
    merge_places_widgets [plainText "ab", plainText "", plainText "cd"] [[], [plainText "c"]]
      [anchorAt 2 "p", anchorAt 3 "q", anchorAt 6 "r", anchorAt 9 "s"]
      (by decide) (by decide) (by decide)⟩


/-! ## Flag decoder: the width of the colour -/

/-- C11, as stated, fails: `isRichtxt = 2^27` gives `Color = 2^24`, and
`isRichtxt = -1` gives `Color = 2^32 - 1`; neither is below `2^24`. -/
theorem NewCtNode_colour_counterexample :
    isInt32 (2 ^ 27) ∧ isInt32 (-1) ∧
    (NewCtNode ⟨1, "n", "custom-colors", 0, 2 ^ 27, 0⟩ false).Color = 2 ^ 24 ∧
    (NewCtNode ⟨1, "n", "custom-colors", 0, -1, 0⟩ false).Color = 2 ^ 32 - 1 ∧
    ¬ (NewCtNode ⟨1, "n", "custom-colors", 0, 2 ^ 27, 0⟩ false).Color < 2 ^ 24 := by
  decide

/-- C11, amended. For every signed 32-bit `isRichtxt` the `Color` field of
`NewCtNode` is a `uint32` (between 0 and `2^32 - 1`), and it is a 24-bit value
exactly when `isRichtxt` has no bit above the colour, i.e.
`0 ≤ isRichtxt < 2^27`. -/
theorem NewCtNode_colour_width (pt : ptNodeMeta) (hasChildren : Bool)
    (hRt : isInt32 pt.IsRichtxt) :
    0 ≤ (NewCtNode pt hasChildren).Color ∧ (NewCtNode pt hasChildren).Color < 2 ^ 32 ∧
    ((NewCtNode pt hasChildren).Color < 2 ^ 24 ↔ (0 ≤ pt.IsRichtxt ∧ pt.IsRichtxt < 2 ^ 27)) := by
  obtain ⟨h1, h2⟩ := hRt
  have hc : (NewCtNode pt hasChildren).Color = (pt.IsRichtxt / 2 ^ 3) % 2 ^ 32 :=
    toUint32_shiftRight pt.IsRichtxt 3
  rw [hc]
  refine ⟨by omega, by omega, ?_⟩
  constructor
  · intro h
    omega
  · intro h
    omega

/-- C11 amended, at `isRichtxt = 0b0111 + 0xFF8040 * 8`: the colour is
`0xFF8040`, below `2^24`. -/
theorem NewCtNode_colour_width_witness :
    isInt32 (0b0111 + 0xFF8040 * 8) ∧
    (NewCtNode ⟨1, "n", "custom-colors", 0, 0b0111 + 0xFF8040 * 8, 0⟩ false).Color = 0xFF8040 ∧
    (NewCtNode ⟨1, "n", "custom-colors", 0, 0b0111 + 0xFF8040 * 8, 0⟩ false).Color < 2 ^ 24 :=
  ⟨by decide, by decide,
    (NewCtNode_colour_width ⟨1, "n", "custom-colors", 0, 0b0111 + 0xFF8040 * 8, 0⟩ false
      (by decide)).2.2.2 (by decide)⟩


/-! ## Colour normaliser -/

theorem eleven_runes (d : List Char) (h : 11 ≤ d.length) :
    ∃ a0 a1 a2 a3 a4 a5 a6 a7 a8 a9 a10 rest,
      d = a0 :: a1 :: a2 :: a3 :: a4 :: a5 :: a6 :: a7 :: a8 :: a9 :: a10 :: rest := by
  match d, h with
  | a0 :: a1 :: a2 :: a3 :: a4 :: a5 :: a6 :: a7 :: a8 :: a9 :: a10 :: rest, _ =>
    exact ⟨a0, a1, a2, a3, a4, a5, a6, a7, a8, a9, a10, rest, rfl⟩

/-- On at least 11 runes the two in-place appends leave the runes at the
positions 0, 1, 2, 5, 6, 9, 10 of the original string: the second append reads
positions 9 and 10, which the first one has not written. -/
theorem normalizeColor_long (s : String) (h : 11 ≤ s.length) :
    normalizeColor s
      = ⟨s.data.take 3 ++ (s.data.drop 5).take 2 ++ (s.data.drop 9).take 2⟩ := by
  obtain ⟨a0, a1, a2, a3, a4, a5, a6, a7, a8, a9, a10, rest, hd⟩ := eleven_runes s.data h
  simp [normalizeColor, overwriteAt, hd]

/-- With at least 11 runes the capacity of the rune slice does not matter. -/
theorem normalizeColorCap_long (cap : Nat) (s : String) (h : 11 ≤ s.length)
    (hcap : s.length ≤ cap) : normalizeColorCap cap s = some (normalizeColor s) := by
  have hl : s.data.length = s.length := rfl
  obtain ⟨a0, a1, a2, a3, a4, a5, a6, a7, a8, a9, a10, rest, hd⟩ := eleven_runes s.data h
  have hc : ¬ cap < 11 := by omega
  simp [normalizeColorCap, normalizeColor, overwriteAt, hd, hc]

/-- The normaliser is the expression at the capacity the runtime gives the rune
slice, where no slice expression is rejected. -/
theorem normalizeColorCap_runeCap (s : String) :
    normalizeColorCap (runeCap s.data.length) s = some (normalizeColor s) := by
  have hc : 11 ≤ runeCap s.length := by
    unfold runeCap
    split <;> omega
  simp [normalizeColorCap, normalizeColor, hc]

/-- C12. Colour normalisation value: for every run, `NewCtText` copies the
text and every attribute other than the two colours and sets `Type` to "text";
it leaves an empty `Background` or `Foreground` empty, and replaces one of at
least 11 characters by its characters at the positions [0,3), [5,7) and
[9,11), whatever the other colour is. -/
theorem NewCtText_normalizes (x : XmlRichText) :
    NewCtText x =
      { toXmlRichText :=
          { x with
            Background := (NewCtText x).Background,
            Foreground := (NewCtText x).Foreground },
        Typ := "text" } ∧
    (x.Background = "" → (NewCtText x).Background = "") ∧
    (11 ≤ x.Background.length →
      (NewCtText x).Background
        = ⟨x.Background.data.take 3 ++ (x.Background.data.drop 5).take 2
            ++ (x.Background.data.drop 9).take 2⟩) ∧
    (x.Foreground = "" → (NewCtText x).Foreground = "") ∧
    (11 ≤ x.Foreground.length →
      (NewCtText x).Foreground
        = ⟨x.Foreground.data.take 3 ++ (x.Foreground.data.drop 5).take 2
            ++ (x.Foreground.data.drop 9).take 2⟩) := by
  have hlen : ∀ c : String, 11 ≤ c.length → c ≠ "" := by
    intro c hc e
    rw [e] at hc
    simp at hc
  refine ⟨?_, ?_, ?_, ?_, ?_⟩
  · rw [NewCtText_fields]
    rfl
  · intro e
    rw [NewCtText_fields]
    simp [e]
  · intro h
    rw [NewCtText_fields]
    simp [hlen _ h, normalizeColor_long _ h]
  · intro e
    rw [NewCtText_fields]
    simp [e]
  · intro h
    rw [NewCtText_fields]
    simp [hlen _ h, normalizeColor_long _ h]

/-- C12, at the run with background "#ffff00000000", foreground
"#eded33333b3b" and weight "heavy" (the colours become "#ff0000" and "#ed333b",
the weight and the text stay), at a run without colours, and at the run with
the foreground "#eded33333b3b" and the background "red": the foreground
becomes "#ed333b" all the same. -/
theorem NewCtText_normalizes_witness :
    NewCtText colouredRun =
      { toXmlRichText :=
          { Foreground := "#ed333b", Background := "#ff0000", Weight := "heavy", Style := "",
            Underline := "", Strikethrough := "", Scale := "", Family := "", Link := "",
            Justification := "", Indent := 0, Text := "t" },
        Typ := "text" } ∧
    (NewCtText (plainRun "t" "")).Foreground = "" ∧
    (NewCtText (plainRun "t" "")).Background = "" ∧
    11 ≤ ({ plainRun "t" "#eded33333b3b" with Background := "red" } : XmlRichText).Foreground.length ∧
    (NewCtText { plainRun "t" "#eded33333b3b" with Background := "red" }).Foreground
      = "#ed333b" :=
  ⟨(NewCtText_normalizes colouredRun).1.trans (by decide),
    (NewCtText_normalizes (plainRun "t" "")).2.2.2.1 (by decide),
    (NewCtText_normalizes (plainRun "t" "")).2.1 (by decide),
    by decide,
    ((NewCtText_normalizes { plainRun "t" "#eded33333b3b" with Background := "red" }).2.2.2.2
      (by decide)).trans (by decide)⟩

/-- C13, as stated, fails: the foreground "#eded33333b3b" is normalised to
"#ed333b", which has 7 characters, not 6. -/
theorem NewCtText_colour_length_counterexample :
    ("#eded33333b3b" : String) ≠ "" ∧
    11 ≤ ("#eded33333b3b" : String).length ∧
    NewCtText (plainRun "t" "#eded33333b3b") = { plainText "t" with Foreground := "#ed333b" } ∧
    (NewCtText (plainRun "t" "#eded33333b3b")).Foreground.length = 7 ∧
    (NewCtText (plainRun "t" "#eded33333b3b")).Foreground.length ≠ 6 := by
  decide

/-- C13, amended. Colour normalisation length: for every run, a `Foreground`
of at least 11 characters is normalised by `NewCtText` to a string of exactly
7 characters (3 + 2 + 2: for the stored form `#rrrrggggbbbb`, the `#` and six
hex digits), and so is a `Background` of at least 11 characters, whatever the
other colour is. -/
theorem NewCtText_colour_length (x : XmlRichText) :
    (11 ≤ x.Foreground.length → (NewCtText x).Foreground.length = 7) ∧
    (11 ≤ x.Background.length → (NewCtText x).Background.length = 7) := by
  have hlen : ∀ c : String, 11 ≤ c.length → c ≠ "" := by
    intro c hc e
    rw [e] at hc
    simp at hc
  refine ⟨?_, ?_⟩
  · intro h
    obtain ⟨a0, a1, a2, a3, a4, a5, a6, a7, a8, a9, a10, rest, hd⟩ :=
      eleven_runes x.Foreground.data h
    rw [NewCtText_fields]
    simp [hlen _ h, normalizeColor_long _ h, hd, String.length]
  · intro h
    obtain ⟨a0, a1, a2, a3, a4, a5, a6, a7, a8, a9, a10, rest, hd⟩ :=
      eleven_runes x.Background.data h
    rw [NewCtText_fields]
    simp [hlen _ h, normalizeColor_long _ h, hd, String.length]

/-- C13 amended, at the run with background "#0000ffff8080" and no foreground,
and at the run with foreground "#eded33333b3b" and background "red". -/
theorem NewCtText_colour_length_witness :
    11 ≤ backgroundRun.Background.length ∧
    (NewCtText backgroundRun).Background.length = 7 ∧
    11 ≤ ({ plainRun "t" "#eded33333b3b" with Background := "red" } : XmlRichText).Foreground.length ∧
    (NewCtText { plainRun "t" "#eded33333b3b" with Background := "red" }).Foreground.length
      = 7 :=
  ⟨by decide, (NewCtText_colour_length backgroundRun).2 (by decide), by decide,
    (NewCtText_colour_length { plainRun "t" "#eded33333b3b" with Background := "red" }).1
      (by decide)⟩

/-- C14: for the foreground "red" `NewCtText` returns a run whose foreground
is "red" followed by four zero runes, a colour that is not in the markup, and
the reconstruction of a node holding such a run returns a tree with that
colour: no error reaches the caller, neither of the reconstruction nor of the
request `GetNodeContentById` on a node whose markup decodes to that run. -/
theorem NewCtText_short_colour :
    ("red" : String) ≠ "" ∧ ("red" : String).length < 11 ∧
    NewCtText (plainRun "a" "red") =
      { plainText "a" with
        Foreground := ⟨['r', 'e', 'd', Char.ofNat 0, Char.ofNat 0, Char.ofNat 0, Char.ofNat 0]⟩ } ∧
    reconstruct [plainRun "a" "red"] [] =
      MergeResult.tree
        [[Element.text
          { plainText "a" with
            Foreground :=
              ⟨['r', 'e', 'd', Char.ofNat 0, Char.ofNat 0, Char.ofNat 0, Char.ofNat 0]⟩ }]] ∧
    (∀ errInfo, reconstruct [plainRun "a" "red"] [] ≠ MergeResult.error errInfo) ∧
    reconstruct [plainRun "a" "red"] [] ≠ MergeResult.crash ∧
    GetNodeContentById { sampleEnv with unmarshalDocument := fun _ => some [plainRun "a" "red"] }
        (sampleDb []) 2 none =
      ContentResult.ok
        { Id := 2, IsRichText := true,
          RichTexts := some [[Element.text
            { plainText "a" with
              Foreground :=
                ⟨['r', 'e', 'd', Char.ofNat 0, Char.ofNat 0, Char.ofNat 0, Char.ofNat 0]⟩ }]],
          Language := "", Code := "", CreateTime := 100, UpdateTime := 200 } ∧
    normalizeColorCap 32 "red"
      = some ⟨['r', 'e', 'd', Char.ofNat 0, Char.ofNat 0, Char.ofNat 0, Char.ofNat 0]⟩ := by
  refine ⟨by decide, by decide, by decide, by decide, ?_, by decide, by decide, by decide⟩
  intro errInfo h
  have e : reconstruct [plainRun "a" "red"] [] =
      MergeResult.tree
        [[Element.text
          { plainText "a" with
            Foreground :=
              ⟨['r', 'e', 'd', Char.ofNat 0, Char.ofNat 0, Char.ofNat 0, Char.ofNat 0]⟩ }]] := by
    decide
  rw [e] at h
  cases h


/-! ## Table rows -/

/-- C15, as stated, fails: the stored rows [R3, R1, R2] do not become
[R1, R2, R3]; the row stored last (R2) is moved to the front and the result is
[R2, R3, R1]. -/
theorem NewCtTable_rotation_counterexample :
    (NewCtTable (fun _ => some ⟨[gridRow "R3", gridRow "R1", gridRow "R2"]⟩) sampleGrid).map
        (fun tbl => tbl.Data) = some [["R2"], ["R3"], ["R1"]] ∧
    (NewCtTable (fun _ => some ⟨[gridRow "R3", gridRow "R1", gridRow "R2"]⟩) sampleGrid).map
        (fun tbl => tbl.Data) ≠ some [["R1"], ["R2"], ["R3"]] := by
  decide

/-- C15, amended. Table row rotation: for every stored table with at least
one row, `NewCtTable` returns `Data` with the same rows, rotated so that the
row stored physically last becomes the logically first row and the other rows
keep their stored order; offset, justification and column widths are copied. -/
theorem NewCtTable_rotates (unmarshal : String → Option XmlGrid) (t : tGrid)
    (front : List XmlRow) (last : XmlRow)
    (h : unmarshal t.Txt = some ⟨front ++ [last]⟩) :
    NewCtTable unmarshal t = some
      { Typ := CtDocElementTable, Offset := t.Offset, Justification := t.Justification,
        Data := last.Cells :: front.map (fun r => r.Cells),
        MinColWidth := t.ColMin, MaxColWidth := t.ColMax } := by
  unfold NewCtTable
  rw [h]
  simp

/-- C15 amended, at the stored rows [R2, R3, R1]: the result is
[R1, R2, R3]. -/
theorem NewCtTable_rotates_witness :
    (fun _ => some ⟨[gridRow "R2", gridRow "R3"] ++ [gridRow "R1"]⟩ : String → Option XmlGrid)
        sampleGrid.Txt = some ⟨[gridRow "R2", gridRow "R3"] ++ [gridRow "R1"]⟩ ∧
    (NewCtTable (fun _ => some ⟨[gridRow "R2", gridRow "R3"] ++ [gridRow "R1"]⟩) sampleGrid).map
        (fun tbl => tbl.Data) = some [["R1"], ["R2"], ["R3"]] :=
  ⟨rfl, by
    rw [NewCtTable_rotates (fun _ => some ⟨[gridRow "R2", gridRow "R3"] ++ [gridRow "R1"]⟩)
      sampleGrid [gridRow "R2", gridRow "R3"] (gridRow "R1") rfl]
    decide⟩


/-! ## Image rows and the node content -/

/-- C16: without a destination directory the two last cases are exchanged.
The row with the filename "doc.pdf" is decoded as an image (here the decoding
fails and so does the request) instead of becoming an attachment, and the row
without filename becomes an attachment instead of a PNG image.  With a
destination directory the same rows are classified as the claim says. -/
theorem imageStep_without_destination :
    imageStep sampleEnv none attachmentRow = ImageStep.failed CtError.imageDecode ∧
    GetNodeContentById sampleEnv (sampleDb [attachmentRow]) 2 none
      = ContentResult.failed CtError.imageDecode ∧
    imageStep sampleEnv none pngRow
      = ImageStep.add (CtAnchoredWidget.embFile
          { Typ := "image-embfile", Offset := 1, Justification := "left",
            Data := some samplePng, Filename := "", DiskPath := none }) ∧
    imageStep sampleEnv (some "out") attachmentRow
      = ImageStep.add (CtAnchoredWidget.embFile
          { Typ := "image-embfile", Offset := 1, Justification := "left",
            Data := none, Filename := "doc.pdf", DiskPath := some "out/2_1.pdf" }) ∧
    imageStep sampleEnv (some "out") pngRow
      = ImageStep.add (CtAnchoredWidget.png
          { Typ := "image-png", Offset := 1, Justification := "left",
            Data := none, Width := 2, Height := 3, DiskPath := some "out/2_1.png" }) := by
  decide

/-- C18. Inline bytes versus disk path: when a pass of the image loop adds a
PNG or an attachment widget, then without destination directory the widget
carries the bytes of the row and no disk path, and with the destination
directory `d` it carries no bytes and the disk path `path.Join(d, name)` with
`name` = "{nodeId}_{offset}" followed by ".png" for an image and by the
extension of the stored filename for an attachment. -/
theorem imageStep_payload (env : Env) (pathToSaveBinary : Option String) (img : tImage)
    (w : CtAnchoredWidget) (h : imageStep env pathToSaveBinary img = ImageStep.add w) :
    (∀ p, w = CtAnchoredWidget.png p →
      (pathToSaveBinary = none → p.Data = img.Png ∧ p.DiskPath = none) ∧
      (∀ d, pathToSaveBinary = some d → p.Data = none ∧ p.DiskPath = some (pathJoin env d
        (toString img.NodeId ++ "_" ++ toString img.Offset ++ ".png")))) ∧
    (∀ e, w = CtAnchoredWidget.embFile e →
      (pathToSaveBinary = none → e.Data = img.Png ∧ e.DiskPath = none) ∧
      (∀ d, pathToSaveBinary = some d → e.Data = none ∧ e.DiskPath = some (pathJoin env d
        (toString img.NodeId ++ "_" ++ toString img.Offset ++ pathExt img.Filename)))) := by
  unfold imageStep at h
  repeat' (first | split at h | (dsimp only at h; split at h))
  all_goals first
    | (cases h; done)
    | (cases h; simp [NewCtPng, NewCtEmbFile])

/-- C18, at the attachment row "doc.pdf" of node 2, offset 1, with the
destination "out" (disk path "out/2_1.pdf", no bytes), and at the PNG row
without destination (bytes inline, no disk path; the widget is an attachment
widget there). -/
theorem imageStep_payload_witness :
    imageStep sampleEnv (some "out") attachmentRow
      = ImageStep.add (CtAnchoredWidget.embFile (NewCtEmbFile attachmentRow (some "out/2_1.pdf"))) ∧
    ((NewCtEmbFile attachmentRow (some "out/2_1.pdf")).Data = none ∧
      (NewCtEmbFile attachmentRow (some "out/2_1.pdf")).DiskPath = some "out/2_1.pdf") ∧
    imageStep sampleEnv none pngRow
      = ImageStep.add (CtAnchoredWidget.embFile (NewCtEmbFile pngRow none)) ∧
    ((NewCtEmbFile pngRow none).Data = some samplePng ∧
      (NewCtEmbFile pngRow none).DiskPath = none) :=
  ⟨by decide,
    (((imageStep_payload sampleEnv (some "out") attachmentRow _ (by decide)).2
      (NewCtEmbFile attachmentRow (some "out/2_1.pdf")) rfl).2 "out" rfl),
    by decide,
    (((imageStep_payload sampleEnv none pngRow _ (by decide)).2
      (NewCtEmbFile pngRow none) rfl).1 rfl)⟩

/-- The widgets the image loop returns: those collected before, then the
widget of every pass that adds one, in the order of the rows. -/
theorem imageLoop_ok (env : Env) (pathToSaveBinary : Option String) (images : List tImage) :
    ∀ (before after : List CtAnchoredWidget),
      imageLoop env pathToSaveBinary images before = Except.ok after →
      after = before ++ images.filterMap (fun img =>
        match imageStep env pathToSaveBinary img with
        | ImageStep.add w => some w
        | _ => none) := by
  induction images with
  | nil =>
    intro before after h
    simp only [imageLoop, Except.ok.injEq] at h
    simp [h]
  | cons img images ih =>
    intro before after h
    rw [imageLoop] at h
    cases hs : imageStep env pathToSaveBinary img with
    | skip =>
      rw [hs] at h
      simp only at h
      rw [ih _ _ h]
      simp [List.filterMap_cons, hs]
    | add w =>
      rw [hs] at h
      simp only at h
      rw [ih _ _ h]
      simp [List.filterMap_cons, hs]
    | failed err =>
      rw [hs] at h
      cases h

/-- C17. Plain content pass-through: for a node whose rich-text flag (bit 0 of
`isRichtxt`) is clear, `GetNodeContentById` returns the stored syntax as
`Language` and the stored text as `Code`, with no document tree, whatever the
widget rows, the markup decoder and the destination are; for a node whose flag
is set, every content it returns holds a document tree and empty `Language` and
`Code`. -/
theorem GetNodeContentById_variant (env : Env) (db : Db) (id : Int)
    (pathToSaveBinary : Option String) (nm : ptNodeMeta) (raw : ptNodeContent)
    (hm : db.selectNodeMetaById id = some nm) (hr : db.selectNodeContentById id = some raw) :
    (nm.IsRichtxt.testBit 0 = false →
      GetNodeContentById env db id pathToSaveBinary = ContentResult.ok
        { Id := raw.NodeId, IsRichText := false, RichTexts := none, Language := raw.Syntax,
          Code := raw.Txt, CreateTime := raw.TsCreation, UpdateTime := raw.TsLastsave }) ∧
    (nm.IsRichtxt.testBit 0 = true →
      ∀ ret, GetNodeContentById env db id pathToSaveBinary = ContentResult.ok ret →
        ret.IsRichText = true ∧ ret.RichTexts ≠ none ∧ ret.Language = "" ∧ ret.Code = "" ∧
        ret.Id = raw.NodeId ∧ ret.CreateTime = raw.TsCreation ∧
        ret.UpdateTime = raw.TsLastsave) := by
  have hflag : ∀ hc, (NewCtNode nm hc).IsRichText = nm.IsRichtxt.testBit 0 :=
    fun hc => land_mask_ne_zero nm.IsRichtxt 0
  constructor
  · intro h0
    simp [GetNodeContentById, GetNodeById, hm, hr, hflag, h0]
  · intro h1 ret hret
    simp only [GetNodeContentById, GetNodeById, hm, hr, hflag, h1] at hret
    simp only [Bool.true_eq_false, if_false] at hret
    split at hret
    · cases hret
    · split at hret
      · cases hret
      · split at hret
        · cases hret
        · split at hret
          · cases hret
          · split at hret
            · simp only [ContentResult.ok.injEq] at hret
              subst hret
              simp
            · cases hret
            · cases hret
            · cases hret

/-- C17, at the plain node 1 and the rich-text node 2 (text "Hi", one PNG row
at offset 1, destination "out") of the sample store. -/
theorem GetNodeContentById_variant_witness :
    (sampleDb [pngRow]).selectNodeMetaById 1 = some ⟨1, "code", "python", 0, 0, 0⟩ ∧
    (sampleDb [pngRow]).selectNodeContentById 1
      = some ⟨1, "print(1)", "python", 0, 0, 0, 0, 100, 200⟩ ∧
    Int.testBit 0 0 = false ∧
    GetNodeContentById sampleEnv (sampleDb [pngRow]) 1 none = ContentResult.ok
      { Id := 1, IsRichText := false, RichTexts := none, Language := "python",
        Code := "print(1)", CreateTime := 100, UpdateTime := 200 } ∧
    GetNodeContentById sampleEnv (sampleDb [pngRow]) 2 (some "out") = ContentResult.ok
      { Id := 2, IsRichText := true,
        RichTexts := some [[Element.text (plainText "H"),
          Element.widget (CtAnchoredWidget.png (NewCtPng pngRow 2 3 (some "out/2_1.png"))),
          Element.text (plainText "i")]],
        Language := "", Code := "", CreateTime := 100, UpdateTime := 200 } ∧
    (∀ ret, GetNodeContentById sampleEnv (sampleDb [pngRow]) 2 (some "out")
        = ContentResult.ok ret →
      ret.IsRichText = true ∧ ret.RichTexts ≠ none ∧ ret.Language = "" ∧ ret.Code = "" ∧
      ret.Id = 2 ∧ ret.CreateTime = 100 ∧ ret.UpdateTime = 200) :=
  ⟨by decide, by decide, by decide,
    (GetNodeContentById_variant sampleEnv (sampleDb [pngRow]) 1 none
      ⟨1, "code", "python", 0, 0, 0⟩ ⟨1, "print(1)", "python", 0, 0, 0, 0, 100, 200⟩
      (by decide) (by decide)).1 (by decide),
    by decide,
    (GetNodeContentById_variant sampleEnv (sampleDb [pngRow]) 2 (some "out")
      ⟨2, "page", "custom-colors", 0, 1, 0⟩
      ⟨2, "<node><rich_text>Hi</rich_text></node>", "custom-colors", 1, 0, 0, 1, 100, 200⟩
      (by decide) (by decide)).2 (by decide)⟩


/-- C19: on the lines ["a"], ["b"] with two widgets at offset 1 the error
branch is reached on the second line with `currentLineIndex = 1` while one
input line remains, and `texts[currentLineIndex]` is out of range: a run-time
panic instead of an error value.  On the lines ["a"], ["b"], ["c"], ["d"] the
message is built, but from the lines "c" and "d", although the current line is
"b" and the next one "c". -/
theorem offsetError_uses_result_index :
    merge [[plainText "a"], [plainText "b"]] [anchorAt 1 "p", anchorAt 1 "q"]
      = MergeResult.crash ∧
    merge [[plainText "a"], [plainText "b"], [plainText "c"], [plainText "d"]]
        [anchorAt 1 "p", anchorAt 1 "q"]
      = MergeResult.error ("expected offset will not appear: cur=3 expected=1\n" ++
          "remained texts in current line:\nc\ntexts in next line:\nd") := by
  decide


/-! ## The line partition is lossless -/

theorem splitNL_length (s : List Char) : (splitNL s).length = 1 + s.count '\n' := by
  induction s with
  | nil => rfl
  | cons c cs ih =>
    by_cases hc : c = '\n'
    · subst hc
      simp [splitNL, ih]
      omega
    · have hne := splitNL_ne_nil cs
      cases hsp : splitNL cs with
      | nil => exact absurd hsp hne
      | cons h t =>
        rw [hsp] at ih
        have hcount : (c :: cs).count '\n' = cs.count '\n' := by
          rw [List.count_cons]
          simp [hc]
        simp only [splitNL, hc, if_false, hsp, hcount]
        simpa using ih

theorem intercalate_splitNL (s : List Char) : List.intercalate ['\n'] (splitNL s) = s := by
  induction s with
  | nil => simp [splitNL, intercalate_single]
  | cons c cs ih =>
    by_cases hc : c = '\n'
    · subst hc
      have hne := splitNL_ne_nil cs
      cases hsp : splitNL cs with
      | nil => exact absurd hsp hne
      | cons h t =>
        rw [hsp] at ih
        simp only [splitNL, if_true, hsp]
        rw [intercalate_cons_cons, ih]
        rfl
    · have hne := splitNL_ne_nil cs
      cases hsp : splitNL cs with
      | nil => exact absurd hsp hne
      | cons h t =>
        rw [hsp] at ih
        simp only [splitNL, hc, if_false, hsp]
        cases t with
        | nil =>
          rw [intercalate_single] at ih ⊢
          rw [ih]
        | cons t1 t2 =>
          rw [intercalate_cons_cons] at ih ⊢
          rw [← ih]
          simp

theorem splitNL_mem_no_break (s : List Char) : ∀ p ∈ splitNL s, '\n' ∉ p := by
  induction s with
  | nil => simp [splitNL]
  | cons c cs ih =>
    by_cases hc : c = '\n'
    · subst hc
      intro p hp
      simp only [splitNL, if_true, List.mem_cons] at hp
      rcases hp with rfl | hp
      · simp
      · exact ih p hp
    · have hne := splitNL_ne_nil cs
      cases hsp : splitNL cs with
      | nil => exact absurd hsp hne
      | cons h t =>
        rw [hsp] at ih
        intro p hp
        simp only [splitNL, hc, if_false, hsp, List.mem_cons] at hp
        rcases hp with rfl | hp
        · have := ih h (by simp)
          intro hmem
          rcases List.mem_cons.1 hmem with e | e
          · exact hc e.symm
          · exact this e
        · exact ih p (by simp [hp])

theorem intercalate_cons_of_ne_nil {α : Type} (sep a : List α) (l : List (List α))
    (h : l ≠ []) : List.intercalate sep (a :: l) = a ++ sep ++ List.intercalate sep l := by
  cases l with
  | nil => exact absurd rfl h
  | cons b l => exact intercalate_cons_cons sep a b l

/-- Joining lines when a run continues the last open line: the first piece is
glued to the open line, the other pieces are lines of their own. -/
theorem intercalate_glue {α : Type} (sep : List α) (A : List (List α)) (c p : List α)
    (P : List (List α)) :
    List.intercalate sep (A ++ (c ++ p) :: P)
      = List.intercalate sep (A ++ [c]) ++ List.intercalate sep (p :: P) := by
  induction A with
  | nil =>
    cases P with
    | nil => simp [intercalate_single]
    | cons q Q => simp [intercalate_single, intercalate_cons_cons]
  | cons a A ih =>
    rw [List.cons_append, List.cons_append,
      intercalate_cons_of_ne_nil sep a _ (by simp),
      intercalate_cons_of_ne_nil sep a _ (by simp), ih]
    simp

theorem concatText_fragment (r : CtText) (q : String) :
    concatText (if q ≠ "" then [({ r with Text := q } : CtText)] else []) = q.data := by
  by_cases hq : q = ""
  · subst hq
    rfl
  · simp [hq, concatText]

theorem concatText_fragments (r : CtText) (ps : List String) :
    (ps.map (fun q => if q ≠ "" then [({ r with Text := q } : CtText)] else [])).map concatText
      = ps.map String.data := by
  induction ps with
  | nil => rfl
  | cons q qs ih =>
    rw [List.map_cons, List.map_cons, List.map_cons, ih, concatText_fragment]

theorem stringsSplit_data (s p : String) (ps : List String) (h : stringsSplit s = p :: ps) :
    splitNL s.data = p.data :: ps.map String.data := by
  unfold stringsSplit at h
  have := congrArg (List.map String.data) h
  simpa [List.map_map, Function.comp_def] using this

theorem fragment_no_break (r : CtText) (q : String) (hq : '\n' ∉ q.data) :
    ∀ t ∈ (if q ≠ "" then [({ r with Text := q } : CtText)] else []), '\n' ∉ t.Text.data := by
  intro t ht
  by_cases e : q = ""
  · simp [e] at ht
  · simp only [ne_eq, e, not_false_eq_true, if_true, List.mem_singleton] at ht
    subst ht
    exact hq

/-- What the loop over the runs adds to the lines: no line break inside a
fragment, one line per line break of the run texts, and the run texts
themselves once the lines are joined again. -/
theorem parseLoop_partition (xs : List XmlRichText) :
    ∀ (done : List (List CtText)) (cur : List CtText) (texts : List (List CtText)),
      parseLoop xs (done ++ [cur]) done.length = some texts →
      ((∀ line ∈ done ++ [cur], ∀ t ∈ line, '\n' ∉ t.Text.data) →
        ∀ line ∈ texts, ∀ t ∈ line, '\n' ∉ t.Text.data) ∧
      texts.length = (done ++ [cur]).length + (xs.map (fun x => x.Text.data.count '\n')).sum ∧
      List.intercalate ['\n'] (texts.map concatText)
        = List.intercalate ['\n'] ((done ++ [cur]).map concatText)
          ++ (xs.map (fun x => x.Text.data)).flatten := by
  induction xs with
  | nil =>
    intro done cur texts h
    simp only [parseLoop, Option.some.injEq] at h
    subst h
    exact ⟨fun h => h, by simp, by simp⟩
  | cons e es ih =>
    intro done cur texts h
    rw [parseLoop] at h
    have ht := NewCtText_text e
    obtain ⟨r, hr⟩ : ∃ r, NewCtText e = r := ⟨_, rfl⟩
    rw [hr] at h ht
    by_cases hempty : r.Text = ""
    · simp only [hempty, if_true, appendAt_last] at h
      obtain ⟨h1, h2, h3⟩ := ih done (cur ++ [r]) texts h
      have he : e.Text.data = [] := by rw [← ht, hempty]
      refine ⟨?_, ?_, ?_⟩
      · intro hno
        apply h1
        intro line hline t htl
        rcases List.mem_append.1 hline with hd | hc
        · exact hno line (List.mem_append.2 (Or.inl hd)) t htl
        · simp only [List.mem_singleton] at hc
          subst hc
          rcases List.mem_append.1 htl with hcur | hrr
          · exact hno cur (by simp) t hcur
          · simp only [List.mem_singleton] at hrr
            subst hrr
            rw [hempty]
            simp
      · rw [h2]
        simp [he]
      · rw [h3]
        have hc : concatText (cur ++ [r]) = concatText cur := by
          simp [concatText, hempty]
        simp [he, hc]
    · simp only [hempty, if_false] at h
      obtain ⟨p, ps, hps⟩ : ∃ p ps, stringsSplit r.Text = p :: ps := by
        unfold stringsSplit
        have := splitNL_ne_nil r.Text.data
        cases hsp : splitNL r.Text.data with
        | nil => exact absurd hsp this
        | cons a l => exact ⟨_, _, rfl⟩
      have hsplit := stringsSplit_data _ _ _ hps
      rw [ht] at hsplit
      rw [hps, splitLoop_last] at h
      simp only at h
      obtain ⟨d, c, hdc⟩ := exists_snoc
        ((cur ++ (if p ≠ "" then [({ r with Text := p } : CtText)] else [])) ::
          ps.map (fun q => if q ≠ "" then [({ r with Text := q } : CtText)] else []))
        (by simp)
      have hlen : d.length = ps.length := by
        have := congrArg List.length hdc
        simp at this
        omega
      rw [hdc, ← List.append_assoc] at h
      have hcli : done.length + ps.length = (done ++ d).length := by simp [hlen]
      rw [hcli] at h
      obtain ⟨h1, h2, h3⟩ := ih (done ++ d) c texts h
      rw [List.append_assoc, ← hdc] at h1 h2 h3
      have hcount : ps.length = e.Text.data.count '\n' := by
        have := splitNL_length e.Text.data
        rw [hsplit] at this
        simp at this
        omega
      have hbreaks : ∀ q ∈ p :: ps, '\n' ∉ q.data := by
        intro q hq
        apply splitNL_mem_no_break e.Text.data
        rw [hsplit]
        rcases List.mem_cons.1 hq with rfl | hq
        · simp
        · exact List.mem_cons_of_mem _ (List.mem_map_of_mem _ hq)
      refine ⟨?_, ?_, ?_⟩
      · intro hno
        apply h1
        intro line hline t htl
        rcases List.mem_append.1 hline with hd | hL
        · exact hno line (List.mem_append.2 (Or.inl hd)) t htl
        · rcases List.mem_cons.1 hL with rfl | hL
          · rcases List.mem_append.1 htl with hcur | hfr
            · exact hno cur (by simp) t hcur
            · exact fragment_no_break r p (hbreaks p (by simp)) t hfr
          · simp only [List.mem_map] at hL
            obtain ⟨q, hq, rfl⟩ := hL
            exact fragment_no_break r q (hbreaks q (List.mem_cons_of_mem _ hq)) t htl
      · rw [h2]
        simp [hcount]
        omega
      · rw [h3]
        have hmap : (done ++ (cur ++ (if p ≠ "" then [({ r with Text := p } : CtText)] else []))
              :: ps.map (fun q => if q ≠ "" then [({ r with Text := q } : CtText)] else [])).map
              concatText
            = done.map concatText ++ (concatText cur ++ p.data) :: ps.map String.data := by
          rw [List.map_append, List.map_cons, concatText_fragments, concatText_append,
            concatText_fragment]
        rw [hmap, intercalate_glue]
        have hjoin : List.intercalate ['\n'] (p.data :: ps.map String.data) = e.Text.data := by
          rw [← hsplit, intercalate_splitNL]
        rw [hjoin]
        simp

/-- The loop over the runs returns lines for every sequence of runs: the line
index stays that of the last line. -/
theorem parseLoop_succeeds (xs : List XmlRichText) :
    ∀ (done : List (List CtText)) (cur : List CtText),
      ∃ texts, parseLoop xs (done ++ [cur]) done.length = some texts := by
  induction xs with
  | nil => intro done cur; exact ⟨_, rfl⟩
  | cons e es ih =>
    intro done cur
    rw [parseLoop]
    generalize NewCtText e = r
    by_cases hempty : r.Text = ""
    · simp only [hempty, if_true, appendAt_last]
      exact ih done (cur ++ [r])
    · simp only [hempty, if_false]
      obtain ⟨p, ps, hps⟩ : ∃ p ps, stringsSplit r.Text = p :: ps := by
        unfold stringsSplit
        have := splitNL_ne_nil r.Text.data
        cases hsp : splitNL r.Text.data with
        | nil => exact absurd hsp this
        | cons a l => exact ⟨_, _, rfl⟩
      rw [hps, splitLoop_last]
      simp only
      obtain ⟨d, c, hdc⟩ := exists_snoc
        ((cur ++ (if p ≠ "" then [({ r with Text := p } : CtText)] else [])) ::
          ps.map (fun q => if q ≠ "" then [({ r with Text := q } : CtText)] else []))
        (by simp)
      have hlen : d.length = ps.length := by
        have := congrArg List.length hdc
        simp at this
        omega
      rw [hdc, ← List.append_assoc]
      have hcli : done.length + ps.length = (done ++ d).length := by simp [hlen]
      rw [hcli]
      exact ih (done ++ d) c

/-- C20. Lossless line partition: for every sequence of runs the parser
produces lines; they hold no fragment whose text contains a line break, their
number is 1 plus the number of line breaks in all run texts (so there is at
least one line), and joining the concatenated fragment texts of the lines with
a line break gives the concatenation of the run texts. -/
theorem parseRuns_partition (xs : List XmlRichText) :
    ∃ texts, parseRuns xs = some texts ∧
      (∀ line ∈ texts, ∀ t ∈ line, '\n' ∉ t.Text.data) ∧
      texts.length = 1 + (xs.map (fun x => x.Text.data.count '\n')).sum ∧
      1 ≤ texts.length ∧
      List.intercalate ['\n'] (texts.map concatText)
        = (xs.map (fun x => x.Text.data)).flatten := by
  obtain ⟨texts, h⟩ := parseLoop_succeeds xs [] []
  refine ⟨texts, h, ?_⟩
  obtain ⟨h1, h2, h3⟩ := parseLoop_partition xs [] [] texts h
  refine ⟨?_, ?_, ?_, ?_⟩
  · apply h1
    intro line hline t ht
    simp only [List.nil_append, List.mem_singleton] at hline
    subst hline
    cases ht
  · rw [h2]
    simp
  · rw [h2]
    simp
  · rw [h3]
    simp [concatText, intercalate_single]

/-- C20, at the runs "a\n\nb\n", "" and "zz\n" (the last with the foreground
"red"): five lines for four line breaks, and the joined lines spell
"a\n\nb\nzz\n". -/
theorem parseRuns_partition_witness :
    parseRuns [plainRun "a\n\nb\n" "", plainRun "" "", plainRun "zz\n" "red"] =
      some [[plainText "a"], [], [plainText "b"],
        [plainText "", { plainText "zz" with Foreground := normalizeColor "red" }], []] ∧
    ∃ texts,
      parseRuns [plainRun "a\n\nb\n" "", plainRun "" "", plainRun "zz\n" "red"] = some texts ∧
      (∀ line ∈ texts, ∀ t ∈ line, '\n' ∉ t.Text.data) ∧
      texts.length = 1 +
        ([plainRun "a\n\nb\n" "", plainRun "" "", plainRun "zz\n" "red"].map
          (fun x => x.Text.data.count '\n')).sum ∧
      1 ≤ texts.length ∧
      List.intercalate ['\n'] (texts.map concatText)
        = ([plainRun "a\n\nb\n" "", plainRun "" "", plainRun "zz\n" "red"].map
            (fun x => x.Text.data)).flatten :=
  ⟨by decide,
    parseRuns_partition [plainRun "a\n\nb\n" "", plainRun "" "", plainRun "zz\n" "red"]⟩


/-! ## Termination of the merge loop -/

/-- Once the budget exceeds `mergeMeasure`, the result of the loop does not
depend on it. -/
theorem mergeLoop_budget_irrelevant (fuel : Nat) :
    ∀ (fuel1 : Nat) (st : MergeState), st.WF → mergeMeasure st < fuel →
      mergeMeasure st < fuel1 → mergeLoop fuel st = mergeLoop fuel1 st := by
  induction fuel with
  | zero => intro fuel1 st _ h _; omega
  | succ fuel ih =>
    intro fuel1 st hwf h h1
    cases fuel1 with
    | zero => omega
    | succ fuel1 =>
      rw [mergeLoop, mergeLoop]
      cases hstep : mergeStep st with
      | done r => rfl
      | next st1 =>
        simp only
        have hm := mergeStep_next st st1 hwf hstep
        have hlt := hm.measure_lt
        exact ih fuel1 st1 hm.wf (by omega) (by omega)

/-- C21. Merge loop termination: for every input (any lines, any widgets in
any order, any offsets) the merge loop ends with a tree, an error or a panic
within `mergeMeasure + 1` passes, and a larger budget gives the same result;
every pass that continues keeps the loop state well formed, lowers
`mergeMeasure` (lines + fragments + widgets), and either consumes a widget
leaving the lines as they are, or consumes a line, or consumes a fragment, or
consumes a widget while replacing the head fragment by a strictly shorter
one. -/
theorem merge_terminates (texts : List (List CtText)) (ws : List CtAnchoredWidget) :
    merge texts ws ≠ MergeResult.unfinished ∧
    (∀ fuel, mergeMeasure (mergeInit texts ws) < fuel →
      mergeLoop fuel (mergeInit texts ws) = merge texts ws) ∧
    (∀ st st1, st.WF → mergeStep st = StepResult.next st1 →
      st1.WF ∧ mergeMeasure st1 < mergeMeasure st ∧
      ((st1.anchoredWidgets.length + 1 = st.anchoredWidgets.length ∧ st1.texts = st.texts) ∨
       (st1.texts.length + 1 = st.texts.length ∧ st1.anchoredWidgets = st.anchoredWidgets) ∨
       (∃ t l rest, st.texts = (t :: l) :: rest ∧ st1.texts = l :: rest ∧
          st1.anchoredWidgets = st.anchoredWidgets) ∨
       (∃ t t1 l rest, st.texts = (t :: l) :: rest ∧ st1.texts = (t1 :: l) :: rest ∧
          t1.Text.length < t.Text.length ∧
          st1.anchoredWidgets.length + 1 = st.anchoredWidgets.length))) := by
  refine ⟨mergeLoop_finishes _ _ (mergeInit_wf texts ws) (Nat.lt_succ_self _), ?_, ?_⟩
  · intro fuel h
    exact mergeLoop_budget_irrelevant fuel _ _ (mergeInit_wf texts ws) h (Nat.lt_succ_self _)
  · intro st st1 hwf hstep
    have hm := mergeStep_next st st1 hwf hstep
    refine ⟨hm.wf, hm.measure_lt, ?_⟩
    cases hm with
    | insert line rest w ws done cur c hoff hhead =>
      exact Or.inl ⟨rfl, rfl⟩
    | endOfLine rest w ws done cur c hoff =>
      exact Or.inr (Or.inl ⟨rfl, rfl⟩)
    | functional t l rest w ws done cur c hempty =>
      exact Or.inr (Or.inr (Or.inl ⟨t, l, rest, rfl, rfl, rfl⟩))
    | whole t l rest w ws done cur c hne hoff =>
      exact Or.inr (Or.inr (Or.inl ⟨t, l, rest, rfl, rfl, rfl⟩))
    | split t l rest w ws done cur c hlo hhi =>
      refine Or.inr (Or.inr (Or.inr ⟨t, _, l, rest, rfl, rfl, ?_, rfl⟩))
      have hcut : ((w.GetOffset - c).toNat : Int) = w.GetOffset - c :=
        Int.toNat_of_nonneg (by omega)
      have hl : (t.Text.data.length : Int) = t.Text.length := rfl
      show (List.drop (w.GetOffset - c).toNat t.Text.data).length < t.Text.data.length
      rw [List.length_drop]
      omega

/-- C21, at the lines ["Hello"], ["b"]: with the widgets at offsets 2 and 7
the loop ends after a split, and with the unsorted widgets at offsets 7, 2 and
-1 it ends as well (with a tree that holds the first widget only); a budget of
100 passes gives the same result. -/
theorem merge_terminates_witness :
    merge [[plainText "Hello"], [plainText "b"]] [anchorAt 2 "p", anchorAt 7 "q"] =
      MergeResult.tree [[Element.text (plainText "He"), Element.widget (anchorAt 2 "p"),
        Element.text (plainText "llo")], [Element.widget (anchorAt 7 "q"),
        Element.text (plainText "b")]] ∧
    merge [[plainText "Hello"], [plainText "b"]] [anchorAt 7 "q", anchorAt 2 "p", anchorAt (-1) "r"]
      = MergeResult.tree [[Element.text (plainText "Hello")],
          [Element.text (plainText "b"), Element.widget (anchorAt 7 "q")], []] ∧
    merge [[plainText "Hello"], [plainText "b"]] [anchorAt 7 "q", anchorAt 2 "p", anchorAt (-1) "r"]
      ≠ MergeResult.unfinished ∧
    mergeLoop 100 (mergeInit [[plainText "Hello"], [plainText "b"]]
        [anchorAt 7 "q", anchorAt 2 "p", anchorAt (-1) "r"])
      = merge [[plainText "Hello"], [plainText "b"]]
          [anchorAt 7 "q", anchorAt 2 "p", anchorAt (-1) "r"] :=
  ⟨by decide, by decide,
    (merge_terminates [[plainText "Hello"], [plainText "b"]]
      [anchorAt 7 "q", anchorAt 2 "p", anchorAt (-1) "r"]).1,
    (merge_terminates [[plainText "Hello"], [plainText "b"]]
      [anchorAt 7 "q", anchorAt 2 "p", anchorAt (-1) "r"]).2.1 100 (by decide)⟩


/-! ## Flag decoding is lossless -/

/-- Bit 0 of an integer in two's complement is its parity. -/
theorem testBit_zero_eq (x : Int) : x.testBit 0 = decide (x % 2 = 1) := by
  have hx := Int.bit_decomp x
  have h2 := Int.bodd_add_div2 x
  conv_lhs => rw [← hx]
  rw [Int.testBit_bit_zero]
  cases hb : x.bodd
  · rw [hb] at h2
    simp only [cond_false] at h2
    have : ¬ (x % 2 = 1) := by omega
    exact (decide_eq_false this).symm
  · rw [hb] at h2
    simp only [cond_true] at h2
    have : x % 2 = 1 := by omega
    exact (decide_eq_true this).symm

/-- Bit `k + 1` of an integer is bit `k` of its half. -/
theorem testBit_succ_eq (x : Int) (k : Nat) : x.testBit (k + 1) = (x / 2).testBit k := by
  have hx := Int.bit_decomp x
  conv_lhs => rw [← hx]
  rw [Int.testBit_bit_succ, Int.div2_val]

/-- OR of a non-negative multiple of `2^i` with a value below `2^i` is their
sum. -/
theorem lor_low_bits (a f : Int) (i : Nat) (ha : 0 ≤ a) (hdiv : a % 2 ^ i = 0)
    (hf0 : 0 ≤ f) (hf : f < 2 ^ i) : Int.lor a f = a + f := by
  obtain ⟨a1, rfl⟩ := Int.eq_ofNat_of_zero_le ha
  obtain ⟨f1, rfl⟩ := Int.eq_ofNat_of_zero_le hf0
  have hf1 : f1 < 2 ^ i := by exact_mod_cast hf
  have hd : a1 % 2 ^ i = 0 := by exact_mod_cast hdiv
  have ha1 : a1 = 2 ^ i * (a1 / 2 ^ i) := by
    have := Nat.div_add_mod a1 (2 ^ i)
    omega
  show ((a1 ||| f1 : Nat) : Int) = (a1 : Int) + (f1 : Int)
  rw [ha1, ← Nat.mul_add_lt_is_or hf1]
  push_cast
  rfl

theorem flag_bit_zero (x : Int) : (if x.testBit 0 = true then (0b0001 : Int) else 0) = x % 2 := by
  rw [testBit_zero_eq]
  by_cases h : x % 2 = 1
  · simp [h]
  · simp only [h, decide_False, Bool.false_eq_true, if_false]
    omega

theorem flag_bit_one (x : Int) :
    (if x.testBit 1 = true then (0b0010 : Int) else 0) = 2 * (x / 2 % 2) := by
  rw [testBit_succ_eq, testBit_zero_eq]
  by_cases h : x / 2 % 2 = 1
  · simp [h]
  · simp only [h, decide_False, Bool.false_eq_true, if_false]
    omega

theorem flag_bit_two (x : Int) :
    (if x.testBit 2 = true then (0b0100 : Int) else 0) = 4 * (x / 4 % 2) := by
  rw [testBit_succ_eq, testBit_succ_eq, testBit_zero_eq]
  by_cases h : x / 2 / 2 % 2 = 1
  · simp only [h, decide_True, if_true]
    omega
  · simp only [h, decide_False, Bool.false_eq_true, if_false]
    omega

/-- Packing the fields `NewCtNode` decodes gives the packed values back. -/
theorem pack_NewCtNode (pt : ptNodeMeta) (hasChildren : Bool)
    (hRo : isInt32 pt.IsRo) (hRt : isInt32 pt.IsRichtxt) :
    packRichtxt (NewCtNode pt hasChildren) = pt.IsRichtxt ∧
    packRo (NewCtNode pt hasChildren) = pt.IsRo := by
  obtain ⟨hRo1, hRo2⟩ := hRo
  obtain ⟨hRt1, hRt2⟩ := hRt
  have hc : (NewCtNode pt hasChildren).Color = (pt.IsRichtxt / 2 ^ 3) % 2 ^ 32 :=
    toUint32_shiftRight pt.IsRichtxt 3
  have hi : (NewCtNode pt hasChildren).Icon = (pt.IsRo / 2 ^ 1) % 2 ^ 32 :=
    toUint32_shiftRight pt.IsRo 1
  have h0 : (NewCtNode pt hasChildren).IsRichText = pt.IsRichtxt.testBit 0 :=
    land_mask_ne_zero pt.IsRichtxt 0
  have h1 : (NewCtNode pt hasChildren).IsBold = pt.IsRichtxt.testBit 1 :=
    land_mask_ne_zero pt.IsRichtxt 1
  have h2 : (NewCtNode pt hasChildren).IsCustomColor = pt.IsRichtxt.testBit 2 :=
    land_mask_ne_zero pt.IsRichtxt 2
  have h3 : (NewCtNode pt hasChildren).IsReadOnly = pt.IsRo.testBit 0 :=
    land_mask_ne_zero pt.IsRo 0
  constructor
  · unfold packRichtxt
    rw [hc, h0, h1, h2, flag_bit_zero, flag_bit_one, flag_bit_two]
    unfold toUint32
    have e1 := lor_low_bits (pt.IsRichtxt / 2 ^ 3 % 2 ^ 32 * 2 ^ 3 % 2 ^ 32)
      (4 * (pt.IsRichtxt / 4 % 2)) 3 (by omega) (by omega) (by omega) (by omega)
    rw [e1]
    have e2 := lor_low_bits
      (pt.IsRichtxt / 2 ^ 3 % 2 ^ 32 * 2 ^ 3 % 2 ^ 32 + 4 * (pt.IsRichtxt / 4 % 2))
      (2 * (pt.IsRichtxt / 2 % 2)) 2 (by omega) (by omega) (by omega) (by omega)
    rw [e2]
    have e3 := lor_low_bits
      (pt.IsRichtxt / 2 ^ 3 % 2 ^ 32 * 2 ^ 3 % 2 ^ 32 + 4 * (pt.IsRichtxt / 4 % 2)
        + 2 * (pt.IsRichtxt / 2 % 2))
      (pt.IsRichtxt % 2) 1 (by omega) (by omega) (by omega) (by omega)
    rw [e3]
    unfold toInt32
    split <;> omega
  · unfold packRo
    rw [hi, h3, flag_bit_zero]
    unfold toUint32
    have e1 := lor_low_bits (pt.IsRo / 2 ^ 1 % 2 ^ 32 * 2 ^ 1 % 2 ^ 32) (pt.IsRo % 2) 1
      (by omega) (by omega) (by omega) (by omega)
    rw [e1]
    unfold toInt32
    split <;> omega

/-- C22. Flag decoding is lossless: for signed 32-bit `isRichtxt` and `isRo`,
`isRichtxt` equals (`Color` shifted left by 3, as a 32-bit word) OR'ed with
`IsCustomColor` at bit 2, `IsBold` at bit 1 and `IsRichText` at bit 0, and
`isRo` equals (`Icon` shifted left by 1) OR'ed with `IsReadOnly` at bit 0, both
read as `int32`; hence two packed values that decode to the same fields are
equal. -/
theorem NewCtNode_lossless (pt pt1 : ptNodeMeta) (hasChildren hasChildren1 : Bool)
    (hRo : isInt32 pt.IsRo) (hRt : isInt32 pt.IsRichtxt)
    (hRo1 : isInt32 pt1.IsRo) (hRt1 : isInt32 pt1.IsRichtxt) :
    packRichtxt (NewCtNode pt hasChildren) = pt.IsRichtxt ∧
    packRo (NewCtNode pt hasChildren) = pt.IsRo ∧
    (((NewCtNode pt hasChildren).Color = (NewCtNode pt1 hasChildren1).Color ∧
      (NewCtNode pt hasChildren).IsCustomColor = (NewCtNode pt1 hasChildren1).IsCustomColor ∧
      (NewCtNode pt hasChildren).IsBold = (NewCtNode pt1 hasChildren1).IsBold ∧
      (NewCtNode pt hasChildren).IsRichText = (NewCtNode pt1 hasChildren1).IsRichText) →
      pt.IsRichtxt = pt1.IsRichtxt) ∧
    (((NewCtNode pt hasChildren).Icon = (NewCtNode pt1 hasChildren1).Icon ∧
      (NewCtNode pt hasChildren).IsReadOnly = (NewCtNode pt1 hasChildren1).IsReadOnly) →
      pt.IsRo = pt1.IsRo) := by
  have h := pack_NewCtNode pt hasChildren hRo hRt
  have h1 := pack_NewCtNode pt1 hasChildren1 hRo1 hRt1
  refine ⟨h.1, h.2, ?_, ?_⟩
  · rintro ⟨e1, e2, e3, e4⟩
    have : packRichtxt (NewCtNode pt hasChildren) = packRichtxt (NewCtNode pt1 hasChildren1) := by
      unfold packRichtxt
      rw [e1, e2, e3, e4]
    rw [h.1, h1.1] at this
    exact this
  · rintro ⟨e1, e2⟩
    have : packRo (NewCtNode pt hasChildren) = packRo (NewCtNode pt1 hasChildren1) := by
      unfold packRo
      rw [e1, e2]
    rw [h.2, h1.2] at this
    exact this

/-- C22, at `isRichtxt = -8`, `isRo = -3` (negative words) and at
`isRichtxt = 0b0111 + 0xFF8040 * 8`, `isRo = 0b101`: the packed values are
rebuilt from the decoded fields. -/
theorem NewCtNode_lossless_witness :
    isInt32 (-3) ∧ isInt32 (-8) ∧ isInt32 0b101 ∧ isInt32 (0b0111 + 0xFF8040 * 8) ∧
    packRichtxt (NewCtNode ⟨1, "n", "custom-colors", -3, -8, 0⟩ true) = -8 ∧
    packRo (NewCtNode ⟨1, "n", "custom-colors", -3, -8, 0⟩ true) = -3 ∧
    (NewCtNode ⟨1, "n", "custom-colors", -3, -8, 0⟩ true).Color = 2 ^ 32 - 1 ∧
    packRichtxt (NewCtNode ⟨2, "m", "custom-colors", 0b101, 0b0111 + 0xFF8040 * 8, 0⟩ false)
      = 0b0111 + 0xFF8040 * 8 :=
  ⟨by decide, by decide, by decide, by decide,
    (NewCtNode_lossless ⟨1, "n", "custom-colors", -3, -8, 0⟩
      ⟨2, "m", "custom-colors", 0b101, 0b0111 + 0xFF8040 * 8, 0⟩ true false
      (by decide) (by decide) (by decide) (by decide)).1,
    (NewCtNode_lossless ⟨1, "n", "custom-colors", -3, -8, 0⟩
      ⟨2, "m", "custom-colors", 0b101, 0b0111 + 0xFF8040 * 8, 0⟩ true false
      (by decide) (by decide) (by decide) (by decide)).2.1,
    by decide,
    (NewCtNode_lossless ⟨2, "m", "custom-colors", 0b101, 0b0111 + 0xFF8040 * 8, 0⟩
      ⟨1, "n", "custom-colors", -3, -8, 0⟩ false true
      (by decide) (by decide) (by decide) (by decide)).1⟩

end Ctb
